import Mathlib

/-!
The shell wsh: history buffer, variable store, variable expansion, tokenizer, variable
commands, pipeline executor and command dispatcher.

A shallow embedding of `src/wsh.c`.

Conventions of the embedding.

* A C string is a `String`; a NULL-terminated `char **` vector is a `List String`
  (`args[i] == NULL` exactly when `i` is the length of the list).
* Values of type `int` are `Int`; C `%` is the truncated remainder `Int.tmod`. The sums the
  code computes stay below twice the capacity of the buffer; overflow of `int` in them is
  not part of the model. The result of `atoi` is brought into the range of a 32-bit `int`.
* A function that can run into undefined behaviour (reading outside an array, reading a
  slot that was never written, dereferencing NULL, dividing by zero) returns `Option`, and
  `none` stands for the undefined run.
* `printf` output is returned as the list of emitted lines.
* The libc and system calls the code uses (`strsep`, `strtok`, `atoi`, `getenv`, `setenv`,
  `pipe`, `close`, `chdir`) are modelled by functions of the same name. The environment is
  the list of the `NAME=value` strings of `environ`, and `getenv` and `setenv` search it as
  libc does. Of a `fork` the parent's side is followed, and the child is recorded with the
  vector it executes; for the children of a pipeline `child_execvp` gives the `execvp` call
  of line 259.
-/

namespace Wsh

/-! ## History buffer (wsh.c lines 18-140) -/

/-- One `char *` cell of the `commands` array: NULL, a pointer to a live string, or a cell of
a `malloc`ed block that nobody has written yet (its value is indeterminate). -/
inductive Slot where
  | null : Slot
  | str (s : String) : Slot
  | indet : Slot
deriving DecidableEq, Repr

/-- The struct `History` (lines 18-24). `commands` is the allocated array. -/
structure History where
  commands : List Slot
  capacity : Int
  count : Int
  start : Int
  set_zero : Int
deriving DecidableEq, Repr

/-- The initialiser of the global `cmdHistory` (line 28), with `DEFAULT_HISTORY_SIZE`
as the parameter `c`. The NULL `commands` pointer is the array of no cells. -/
def cmdHistory0 (c : Int) : History :=
  { commands := [], capacity := c, count := 0, start := 0, set_zero := 0 }

/-- C `a % b` on `int`. -/
def c_mod (a b : Int) : Option Int :=
  if b = 0 then none else some (Int.tmod a b)

/-- Read `a[i]`: undefined outside the array and on a cell never written. -/
def load (a : List Slot) (i : Int) : Option Slot :=
  if i < 0 then none
  else
    match a[i.toNat]? with
    | some Slot.indet => none
    | r => r

/-- Read `a[i]` and use it as a string (`strcmp`, `%s`): NULL is undefined as well. -/
def loadStr (a : List Slot) (i : Int) : Option String :=
  match load a i with
  | some (Slot.str s) => some s
  | _ => none

/-- Write `a[i] = v`: undefined outside the array. -/
def store (a : List Slot) (i : Int) (v : Slot) : Option (List Slot) :=
  if 0 ≤ i ∧ i.toNat < a.length then some (a.set i.toNat v) else none

/-- Lines 30-36: a fresh array of `capacity` NULL cells, `count = 0`; `start` and
`set_zero` are not touched. -/
def init_history (h : History) : History :=
  { h with commands := List.replicate h.capacity.toNat Slot.null, count := 0 }

/-- The text of `printf("%d) %s\n", n, s)`. -/
def fmtLine (n : Int) (s : String) : String :=
  toString n ++ ") " ++ s ++ "\n"

/-- The loop of lines 49-52, `n` iterations left, loop variable `i`. -/
def print_history_loop (h : History) : Nat → Int → Option (List String)
  | 0, _ => some []
  | n + 1, i => do
    let index ← c_mod (h.start + i) h.capacity
    let s ← loadStr h.commands index
    let rest ← print_history_loop h n (i + 1)
    pure (fmtLine (i + 1) s :: rest)

/-- Lines 45-53: the emitted lines. -/
def print_history (h : History) : Option (List String) :=
  if h.set_zero = 1 then some []
  else print_history_loop h h.count.toNat 0

/-- The two loops of lines 59-74: the arguments joined by single spaces. -/
def joinArgs : List String → String
  | [] => ""
  | [a] => a
  | a :: b :: rest => a ++ " " ++ joinArgs (b :: rest)

/-- Lines 55-94. -/
def add_command_to_history (h : History) (args : List String) : Option History :=
  match args with
  | [] => some h
  | a :: _ =>
    if a = "" then some h
    else
      let command := joinArgs args
      let firstIndex := h.start
      (if 0 < h.count then (loadStr h.commands firstIndex).map (fun s => decide (s = command))
        else some false).bind fun dup =>
      if dup then some h
      else
        (c_mod (h.start - 1 + h.capacity) h.capacity).bind fun start =>
        (load h.commands start).bind fun _old =>
        (store h.commands start (Slot.str command)).bind fun commands =>
        some { h with
          start := start
          commands := commands
          count := if h.count < h.capacity then h.count + 1 else h.count }

/-- The loop of lines 98-100 (and the reads of lines 118-130): every entry of the window is
read, to be freed. `n` iterations left, loop variable `i`. -/
def free_loop (h : History) : Nat → Int → Option Unit
  | 0, _ => some ()
  | n + 1, i => do
    let idx ← c_mod (h.start + i) h.capacity
    let _ ← load h.commands idx
    free_loop h n (i + 1)

/-- The loop of lines 112-115: `newCommands[i] = commands[(start + i) % capacity]`. -/
def copy_loop (h : History) (newCommands : List Slot) : Nat → Int → Option (List Slot)
  | 0, _ => some newCommands
  | n + 1, i => do
    let idx ← c_mod (h.start + i) h.capacity
    let p ← load h.commands idx
    let newCommands ← store newCommands i p
    copy_loop h newCommands n (i + 1)

/-- Lines 96-140. The block of line 108 is not initialised. -/
def set_history_size (h : History) (newSize : Int) : Option History :=
  if newSize = 0 then do
    let _ ← free_loop h h.count.toNat 0
    pure { init_history h with set_zero := 1 }
  else do
    let newCommands := List.replicate newSize.toNat Slot.indet
    let newCount := if h.count < newSize then h.count else newSize
    let newCommands ← copy_loop h newCommands newCount.toNat 0
    let _ ← free_loop h h.count.toNat 0
    pure { commands := newCommands, capacity := newSize, count := newCount, start := 0,
           set_zero := 0 }

/-- The entries of the buffer, most recent first: cell `(start + i) % capacity` for
`i = 0 .. count - 1`, the enumeration print_history makes. -/
def entries_loop (h : History) : Nat → Int → Option (List String)
  | 0, _ => some []
  | n + 1, i => do
    let index ← c_mod (h.start + i) h.capacity
    let s ← loadStr h.commands index
    let rest ← entries_loop h n (i + 1)
    pure (s :: rest)

/-- The entries of the buffer, most recent first. -/
def entries (h : History) : Option (List String) :=
  entries_loop h h.count.toNat 0

/-! ### Specification-side definitions for the history buffer -/

/-- The shape every reachable history with a positive capacity has: the array has
`capacity` cells, `start` is an index into it and `count` does not exceed the capacity. -/
structure WF (h : History) : Prop where
  cap_pos : 0 < h.capacity
  len : h.commands.length = h.capacity.toNat
  start_lo : 0 ≤ h.start
  start_hi : h.start < h.capacity
  count_lo : 0 ≤ h.count
  count_hi : h.count ≤ h.capacity

/-- The cell print_history reads for position `i`. -/
def cell (h : History) (i : Int) : Option String :=
  (c_mod (h.start + i) h.capacity).bind (loadStr h.commands)

/-- The window of a history: `es` lists the strings of the `count` cells from `start` on. -/
def Window (h : History) (es : List String) : Prop :=
  es.length = h.count.toNat ∧ ∀ j (hj : j < es.length), cell h (j : Int) = some es[j]

/-- The lines print_history makes of the entries `es`, the first one numbered `i + 1`. -/
def numbered (i : Int) : List String → List String
  | [] => []
  | s :: rest => fmtLine (i + 1) s :: numbered (i + 1) rest

/-- The history add_command_to_history leaves when it stores `command`. -/
def pushed (h : History) (command : String) : History :=
  { h with
    start := (((h.start.toNat + h.capacity.toNat - 1) % h.capacity.toNat : Nat) : Int)
    commands := h.commands.set ((h.start.toNat + h.capacity.toNat - 1) % h.capacity.toNat)
      (Slot.str command)
    count := if h.count < h.capacity then h.count + 1 else h.count }

/-- The function add_command_to_history called with each vector of `cmds` in turn. -/
def record_all (h : History) : List (List String) → Option History
  | [] => some h
  | args :: rest => (add_command_to_history h args).bind fun h1 => record_all h1 rest

/-- A wrapped buffer of capacity 3 holding `ls` (most recent, in the last cell) and `pwd`
(in the first cell). -/
def sampleHistory : History :=
  { commands := [Slot.str "pwd", Slot.null, Slot.str "ls"], capacity := 3, count := 2,
    start := 2, set_zero := 0 }

/-- A full buffer of capacity 2, most recent entry `b` in cell 1, oldest entry `a` in
cell 0. -/
def fullHistory : History :=
  { commands := [Slot.str "a", Slot.str "b"], capacity := 2, count := 2, start := 1,
    set_zero := 0 }

/-! ## Variable store (wsh.c lines 11-16, 27, 142-151, 337-403) -/

/-- The struct `ShellVar` (lines 11-16). A pointer to a node is the index of the node in the
list of allocated nodes; NULL is `none`. -/
structure ShellVar where
  name : String
  value : String
  next : Option Nat
  prev : Option Nat
deriving DecidableEq, Repr

/-- The nodes allocated so far, in the order of their allocation, and the global `shellVars`
(line 27), the head of the list. -/
structure VarStore where
  nodes : List ShellVar
  shellVars : Option Nat
deriving DecidableEq, Repr

/-- The store at program start: `shellVars = NULL`. -/
def VarStore.empty : VarStore :=
  { nodes := [], shellVars := none }

/-- The loop of lines 143-150, the same as the loop of lines 346-348: follow `next` from
`current` to the first node named `name`, or to NULL. `none` is a dangling pointer or the
end of the fuel. -/
def find_shell_var_loop (nodes : List ShellVar) (name : String) :
    Nat → Option Nat → Option (Option Nat)
  | _, none => some none
  | 0, some _ => none
  | fuel + 1, some p =>
    match nodes[p]? with
    | none => none
    | some node =>
      if node.name = name then some (some p)
      else find_shell_var_loop nodes name fuel node.next

/-- Lines 142-151; the fuel is the number of allocated nodes. -/
def find_shell_var (s : VarStore) (head : Option Nat) (name : String) : Option (Option Nat) :=
  find_shell_var_loop s.nodes name s.nodes.length head

/-- Lines 340-343: the value is cut at its first newline. -/
def trim_newline (value : String) : String :=
  String.mk (value.data.takeWhile (fun c => c ≠ '\n'))

/-- Lines 337-383. -/
def set_shell_var (s : VarStore) (name value : String) : Option VarStore :=
  let value := trim_newline value
  (find_shell_var_loop s.nodes name s.nodes.length s.shellVars).bind fun current =>
  match current with
  | some p =>
    match s.nodes[p]? with
    | none => none
    | some node => some { s with nodes := s.nodes.set p { node with value := value } }
  | none =>
    let newVar : ShellVar := { name := name, value := value, next := s.shellVars, prev := none }
    let p := s.nodes.length
    let nodes := s.nodes ++ [newVar]
    match s.shellVars with
    | none => some { nodes := nodes, shellVars := some p }
    | some q =>
      match nodes[q]? with
      | none => none
      | some hd =>
        some { nodes := nodes.set q { hd with prev := some p }, shellVars := some p }

/-- The loop of lines 392-394: follow `next` from the non-NULL `current` to the last node. -/
def last_loop (nodes : List ShellVar) : Nat → Nat → Option Nat
  | 0, _ => none
  | fuel + 1, p =>
    match nodes[p]? with
    | none => none
    | some node =>
      match node.next with
      | none => some p
      | some q => last_loop nodes fuel q

/-- The text of `printf("%s=%s\n", name, value)`. -/
def fmtVar (name value : String) : String :=
  name ++ "=" ++ value ++ "\n"

/-- The loop of lines 397-402: follow `prev` from `current` to NULL, printing the nodes
whose value is not empty. -/
def back_loop (nodes : List ShellVar) : Nat → Option Nat → Option (List String)
  | _, none => some []
  | 0, some _ => none
  | fuel + 1, some p =>
    match nodes[p]? with
    | none => none
    | some node =>
      (back_loop nodes fuel node.prev).map fun rest =>
        if node.value ≠ "" then fmtVar node.name node.value :: rest else rest

/-- Lines 386-403: the emitted lines. -/
def list_shell_vars (s : VarStore) : Option (List String) :=
  match s.shellVars with
  | none => some []
  | some p =>
    (last_loop s.nodes s.nodes.length p).bind fun last =>
      back_loop s.nodes s.nodes.length (some last)

/-- The function set_shell_var called with each pair of `ops` in turn. -/
def set_all (s : VarStore) : List (String × String) → Option VarStore
  | [] => some s
  | op :: rest => (set_shell_var s op.1 op.2).bind fun s1 => set_all s1 rest

/-- The nodes of the list in the order of the `next` pointers, from `current` on. -/
def list_from (nodes : List ShellVar) : Nat → Option Nat → Option (List ShellVar)
  | _, none => some []
  | 0, some _ => none
  | fuel + 1, some p =>
    match nodes[p]? with
    | none => none
    | some node => (list_from nodes fuel node.next).map fun rest => node :: rest

/-- The shape of the list set_shell_var builds: node `i` was allocated as the `i`-th one, its
`next` is the node allocated before it, its `prev` the node allocated after it, and the head
is the node allocated last. -/
structure StoreInv (s : VarStore) : Prop where
  head : s.shellVars = if s.nodes.length = 0 then none else some (s.nodes.length - 1)
  next : ∀ i (hi : i < s.nodes.length),
    s.nodes[i].next = if i = 0 then none else some (i - 1)
  prev : ∀ i (hi : i < s.nodes.length),
    s.nodes[i].prev = if i + 1 < s.nodes.length then some (i + 1) else none

/-- The largest index below `k` at which `names` holds `name`: the node the search loop
stops at when it starts at node `k - 1` of a list of the shape StoreInv. -/
def findDown (names : List String) (name : String) : Nat → Option Nat
  | 0 => none
  | k + 1 => if names[k]? = some name then some k else findDown names name k

/-- The names of the allocated nodes, oldest first. -/
def VarStore.names (s : VarStore) : List String :=
  s.nodes.map (fun nd => nd.name)

/-- The name and value of every allocated node, oldest first. -/
def VarStore.pairs (s : VarStore) : List (String × String) :=
  s.nodes.map (fun nd => (nd.name, nd.value))

/-- What set_shell_var does to the name/value pairs, oldest first: the value of the entry
named `name` is replaced where it stands, or a new entry is added at the end. -/
def specSet (l : List (String × String)) (name value : String) : List (String × String) :=
  match findDown (l.map Prod.fst) name l.length with
  | some p => l.set p (name, trim_newline value)
  | none => l ++ [(name, trim_newline value)]

/-- The pairs after the calls `ops`, by specSet. -/
def specAll (l : List (String × String)) (ops : List (String × String)) :
    List (String × String) :=
  ops.foldl (fun acc op => specSet acc op.1 op.2) l

/-- The store after `local Y=7` and `local X=1`: two nodes, the head is the node of `X`. -/
def sampleStore : VarStore :=
  { nodes := [{ name := "Y", value := "7", next := none, prev := some 1 },
              { name := "X", value := "1", next := some 0, prev := none }],
    shellVars := some 1 }

/-- The lines list_shell_vars makes of the pairs, oldest first: one `name=value` line for
every pair whose value is not empty. -/
def varLines (l : List (String × String)) : List String :=
  (l.filter (fun e => e.2 ≠ "")).map (fun e => fmtVar e.1 e.2)

/-- Following the spec's words: the names of the calls `names` in the order in which they
were first inserted. -/
def firstInserted : List String → List String
  | [] => []
  | n :: rest => n :: (firstInserted rest).filter (fun m => m ≠ n)

/-- Following the spec's words: the current value of `name` after the calls `ops`, the
value of the last call on `name` cut at its first newline; the empty string when no call
was on `name`. -/
def currentValue (ops : List (String × String)) (name : String) : String :=
  match ops.reverse.find? (fun op => op.1 = name) with
  | some op => trim_newline op.2
  | none => ""

/-! ## Variable expansion (wsh.c lines 153-183) -/

/-- The process environment, the array `environ` behind `getenv` and `setenv`: its strings,
of the form `NAME=value`, in their order. -/
abbrev Env := List String

/-- The test libc makes of an environment string `e`: `e` begins with `name` followed
by `=` (`strncmp(e, name, len) == 0 && e[len] == '='`). -/
def env_match (name : String) (e : String) : Bool :=
  (name.data ++ ['=']).isPrefixOf e.data

/-- The libc call `getenv`: NULL for the empty name; otherwise the text after `name=` in the
first environment string that begins with `name=`, or NULL when there is none. The name is
not looked at for a `=` of its own. -/
def getenv (env : Env) (name : String) : Option String :=
  if name = "" then none
  else (env.find? (env_match name)).map fun e => String.mk (e.data.drop (name.data.length + 1))

/-- The state handle_dollor_value reads: the environment and the global `shellVars`. -/
structure ShellState where
  env : Env
  vars : VarStore
deriving DecidableEq

/-- Lines 157-168: the value of `varName`, from the environment, else from the shell
variables, else the empty string. -/
def lookup_var (sh : ShellState) (varName : String) : Option String :=
  match getenv sh.env varName with
  | some varValue => some varValue
  | none =>
    (find_shell_var sh.vars sh.vars.shellVars varName).bind fun var =>
      match var with
      | some p => (sh.vars.nodes[p]?).map (fun node => node.value)
      | none => some ""

/-- Lines 155-156: when `arg[0] == '$'` and `arg[1] != 0`, the name `arg + 1`. -/
def var_name (arg : String) : Option String :=
  match arg.data with
  | '$' :: c :: rest => some (String.mk (c :: rest))
  | _ => none

/-- The loop of lines 154-171, loop variable `i`. -/
def subst_loop (sh : ShellState) : Nat → Nat → List String → Option (List String)
  | 0, _, _ => none
  | fuel + 1, i, args =>
    match args[i]? with
    | none => some args
    | some arg =>
      match var_name arg with
      | some varName =>
        (lookup_var sh varName).bind fun varValue =>
          subst_loop sh fuel (i + 1) (args.set i varValue)
      | none => subst_loop sh fuel (i + 1) args

/-- The loop of lines 176-178, loop variable `j`: `args[j] = args[j + 1]` until
`args[j]` is NULL. Writing the NULL of the end at `j` cuts the vector there. -/
def shift_loop : Nat → Nat → List String → Option (List String)
  | 0, _, _ => none
  | fuel + 1, j, args =>
    match args[j]? with
    | none => some args
    | some _ =>
      match args[j + 1]? with
      | some next => shift_loop fuel (j + 1) (args.set j next)
      | none => shift_loop fuel (j + 1) (args.take j)

/-- The loop of lines 173-182, loop variable `i`; after a removal the `i--` of line 180
and the `i++` of the loop leave `i` as it is. -/
def removal_loop : Nat → Nat → List String → Option (List String)
  | 0, _, _ => none
  | fuel + 1, i, args =>
    match args[i]? with
    | none => some args
    | some arg =>
      if arg = "" ∧ args[i + 1]? ≠ none then
        (shift_loop (args.length + 1) i args).bind fun args1 => removal_loop fuel i args1
      else removal_loop fuel (i + 1) args

/-- Lines 153-171, the substitution pass. -/
def substitute_pass (sh : ShellState) (args : List String) : Option (ShellState × List String) :=
  (subst_loop sh (args.length + 1) 0 args).map fun out => (sh, out)

/-- Lines 173-182, the removal pass. -/
def removal_pass (args : List String) : Option (List String) :=
  removal_loop (2 * args.length + 1) 0 args

/-- Lines 153-183. -/
def handle_dollor_value (sh : ShellState) (args : List String) :
    Option (ShellState × List String) :=
  (substitute_pass sh args).bind fun r => (removal_pass r.2).map fun out => (r.1, out)

/-- Following the spec's words: the value the variable store holds for `name`, if it
defines `name`. -/
def storeValue (vars : VarStore) (name : String) : Option String :=
  (vars.pairs.reverse.find? (fun e => e.1 = name)).map (fun e => e.2)

/-- Following the spec's words: the environment's value of `name`, if the environment
defines `name`. An environment string defines the name before its first `=` and gives it
the text after that `=`; of several strings for one name the first counts. No string
defines a name that holds `=`. -/
def envValue (env : Env) (name : String) : Option String :=
  (env.find? (fun e =>
      decide ('=' ∈ e.data ∧ String.mk (e.data.takeWhile (fun c => c ≠ '=')) = name))).map
    fun e => String.mk ((e.data.dropWhile (fun c => c ≠ '=')).drop 1)

/-- The value substituted for `$name`: what `getenv` returns for `name` if it returns a
string, otherwise the store's value if the store defines `name`, otherwise the empty
string. -/
def substValue (sh : ShellState) (name : String) : String :=
  match getenv sh.env name with
  | some v => v
  | none =>
    match storeValue sh.vars name with
    | some v => v
    | none => ""

/-- The token after the substitution: a token `$NAME` with at least one character after the
`$` becomes the value substituted for `NAME`, every other token stays. -/
def expandSpec (sh : ShellState) (token : String) : String :=
  match var_name token with
  | some name => substValue sh name
  | none => token

/-- What the removal pass leaves of the substituted tokens: the non-empty tokens among all
but the last one, in their order, followed by the last one. -/
def removalSpec (args : List String) : List String :=
  (args.dropLast.filter (fun t => t ≠ "")) ++ args.getLast?.toList

/-! ## Tokenizer (wsh.c lines 8, 185-235) -/

/-- The constant of line 8. -/
def MAX_ARGS : Nat := 64

/-- The libc call `strsep(&input, delim)` on a non-NULL `input`: the token, the text up to
the first character of `delim`, and the new value of `input`, the text after that character
or NULL when there is none. -/
def strsep (delim : List Char) : List Char → List Char × Option (List Char)
  | [] => ([], none)
  | c :: rest =>
    if c ∈ delim then ([], some rest)
    else (c :: (strsep delim rest).1, (strsep delim rest).2)

/-- The delimiter of line 196: space, tab, newline. -/
def delimiter : List Char := [' ', '\t', '\n']

/-- The loop of lines 198-211; `args` are the tokens stored so far, `arg_count` is their
number. -/
def parse_input_loop : Nat → Option (List Char) → List String → Option (List String)
  | 0, _, _ => none
  | fuel + 1, input, args =>
    match input with
    | none => some args
    | some s =>
      if args.length < MAX_ARGS then
        if (strsep delimiter s).1 = [] then parse_input_loop fuel (strsep delimiter s).2 args
        else parse_input_loop fuel (strsep delimiter s).2
          (args ++ [String.mk (strsep delimiter s).1])
      else some args

/-- Lines 185-215. -/
def parse_input (input : String) : Option (List String) :=
  parse_input_loop (input.data.length + 2) (some input.data) []

/-- The loop of lines 228-231; `cmd` are the stages stored so far, `cmd_count` is their
number. -/
def parse_pipe_input_loop : Nat → Option (List Char) → List (List String) →
    Option (List (List String))
  | 0, _, _ => none
  | fuel + 1, input, cmd =>
    match input with
    | none => some cmd
    | some s =>
      if cmd.length < MAX_ARGS - 1 then
        (parse_input (String.mk (strsep ['|'] s).1)).bind fun args =>
          parse_pipe_input_loop fuel (strsep ['|'] s).2 (cmd ++ [args])
      else some cmd

/-- Lines 217-235. -/
def parse_pipe_input (input : String) : Option (List (List String)) :=
  parse_pipe_input_loop (input.data.length + 2) (some input.data) []

/-- Following the spec's words: the maximal runs of characters other than space, tab and
newline, in their order. -/
def tokenRuns (s : String) : List String :=
  ((s.data.splitOnP (fun c => c ∈ delimiter)).filter (fun t => t ≠ [])).map String.mk

/-- Following the spec's words: the segments between the `|` characters, in their order. -/
def pipeSegments (s : String) : List String :=
  (s.data.splitOnP (fun c => c = '|')).map String.mk

/-! ## Variable commands (wsh.c lines 405-432) -/

/-- The libc call `strtok` on the text `s` (the argument, or the saved position when the
argument is NULL): leading characters of `delim` are skipped; NULL when nothing is left;
otherwise the token, the text up to the next character of `delim`, and the saved position,
the text after that character. -/
def strtok (delim : List Char) (s : List Char) : Option (List Char × List Char) :=
  if s.dropWhile (fun c => c ∈ delim) = [] then none
  else
    some ((s.dropWhile (fun c => c ∈ delim)).takeWhile (fun c => c ∉ delim),
      (((s.dropWhile (fun c => c ∈ delim)).dropWhile (fun c => c ∉ delim)).drop 1))

/-- What `setenv` does to `environ`: the first string that begins with `name=` is replaced by
`name=value` where it stands; when there is none, `name=value` is added at the end. -/
def put_env : Env → String → String → Env
  | [], name, value => [name ++ "=" ++ value]
  | e :: rest, name, value =>
    if env_match name e then (name ++ "=" ++ value) :: rest
    else e :: put_env rest name value

/-- The libc call `setenv(name, value, 1)`: it fails (`none`) on an empty name and on a name
holding `=`. -/
def setenv (env : Env) (name value : String) : Option Env :=
  if name = "" ∨ '=' ∈ name.data then none
  else some (put_env env name value)

/-- Lines 405-432: the state afterwards and the emitted lines (`perror` included). -/
def handle_var_command (sh : ShellState) (input : String) :
    Option (ShellState × List String) :=
  match strtok [' '] input.data with
  | none => some (sh, ["Error: No variable assignment provided.\n"])
  | some (command, save) =>
    match strtok [] save with
    | none => some (sh, ["Error: No variable assignment provided.\n"])
    | some (var_assignment, _) =>
      match strtok ['='] var_assignment with
      | none => some (sh, ["Error: Invalid variable assignment format.\n"])
      | some (var_name, save1) =>
        match strtok [] save1 with
        | none => some (sh, ["Error: Invalid variable assignment format.\n"])
        | some (var_value, _) =>
          if String.mk command = "local" then
            (set_shell_var sh.vars (String.mk var_name) (String.mk var_value)).map
              fun vars => ({ sh with vars := vars }, [])
          else if String.mk command = "export" then
            match setenv sh.env (String.mk var_name) (trim_newline (String.mk var_value)) with
            | some env => some ({ sh with env := env }, [])
            | none => some (sh, ["setenv failed: Invalid argument\n"])
          else some (sh, [])

/-! ## Pipeline executor, the parent's side (wsh.c lines 237-278) -/

/-- The lowest descriptor not in `fds`, searched from `n` on with `fuel` steps. -/
def lowest_free (fds : List Nat) : Nat → Nat → Nat
  | 0, n => n
  | fuel + 1, n => if n ∈ fds then lowest_free fds fuel (n + 1) else n

/-- The system call `pipe(p)`: the two lowest free descriptors become open; `p[0]` is the
read end and `p[1]` the write end. -/
def pipe (fds : List Nat) : (Nat × Nat) × List Nat :=
  let p0 := lowest_free fds fds.length 0
  let p1 := lowest_free (p0 :: fds) (fds.length + 1) 0
  ((p0, p1), p1 :: p0 :: fds)

/-- The system call `close(fd)`. -/
def close (fds : List Nat) (fd : Nat) : List Nat :=
  fds.filter (fun x => x ≠ fd)

/-- What the parent does for one child: the stage and the descriptors the child takes as
standard input and, when a stage follows, as standard output. -/
structure Child where
  args : List String
  stdin : Nat
  stdout : Option Nat
deriving DecidableEq, Repr

/-- What execute_pipe_command leaves and did in the parent: the open descriptors on return,
the children spawned and the pipes created, in their order. -/
structure PipeRun where
  fds : List Nat
  children : List Child
  pipes : List (Nat × Nat)
deriving DecidableEq, Repr

/-- The loop of lines 241-275 in the parent (fork returns a positive pid); `fd_in` is the
variable of line 238. -/
def execute_pipe_loop : List (List String) → Nat → PipeRun → PipeRun
  | [], _, run => run
  | stage :: rest, fd_in, run =>
    let p := pipe run.fds
    let child : Child :=
      { args := stage, stdin := fd_in, stdout := if rest = [] then none else some p.1.2 }
    let fds1 := close p.2 p.1.2
    let fds2 := if fd_in ≠ 0 then close fds1 fd_in else fds1
    execute_pipe_loop rest p.1.1
      { fds := fds2, children := run.children ++ [child], pipes := run.pipes ++ [p.1] }

/-- Lines 237-278 in the parent, entered with the open descriptors `fds`. -/
def execute_pipe_command (cmds : List (List String)) (fds : List Nat) : PipeRun :=
  execute_pipe_loop cmds 0 { fds := fds, children := [], pipes := [] }

/-- The child forked for a stage, at line 259: `execvp(cmds[i][0], cmds[i])`, the file and
the vector handed over. The file is the first token of the stage; in a stage of no tokens
`cmds[i][0]` is the NULL that ends the vector, and `execvp` with a NULL file is undefined
(`none`). -/
def child_execvp (c : Child) : Option (String × List String) :=
  match c.args with
  | [] => none
  | file :: _ => some (file, c.args)

/-! ## Command dispatcher (wsh.c lines 26, 280-335, 434-513) -/

/-- The globals of the shell together with what the operating system keeps for it: the
working directory and the directories `chdir` accepts. -/
structure Shell where
  sh : ShellState
  cmdHistory : History
  batch_mode_on : Int
  cwd : String
  dirs : List String
deriving DecidableEq

/-- How a call of execute_command ends: the process exits, or the call returns with the new
state, the emitted lines and the vector handed to `execvp` in the forked child, if any. -/
inductive Outcome where
  | exited (status : Int) : Outcome
  | returned (s : Shell) (out : List String) (spawned : Option (List String)) : Outcome
deriving DecidableEq

/-- The conversion of a `long` to `int` on the return of `atoi`: the value modulo 2^32, in
the range of a 32-bit `int`. -/
def long_to_int (x : Int) : Int :=
  (x + 2147483648) % 4294967296 - 2147483648

/-- The range of `strtol`: a value outside the 64-bit `long` becomes the nearest bound. -/
def clamp_long (x : Int) : Int :=
  if x < -9223372036854775808 then -9223372036854775808
  else if 9223372036854775807 < x then 9223372036854775807
  else x

/-- The decimal digits at the start of `cs`, as a number. -/
def digits_value (cs : List Char) : Nat :=
  (cs.takeWhile Char.isDigit).foldl (fun acc c => acc * 10 + (c.toNat - 48)) 0

/-- The libc call `atoi`, which is `(int) strtol(s, NULL, 10)`: white space is skipped, a sign
is read, the decimal digits that follow give the value, which is cut to a `long` and then
converted to `int`. -/
def atoi (s : String) : Int :=
  match s.data.dropWhile (fun c => c = ' ' ∨ ('\t' ≤ c ∧ c ≤ '\r')) with
  | '-' :: rest => long_to_int (clamp_long (- (digits_value rest : Int)))
  | '+' :: rest => long_to_int (clamp_long (digits_value rest : Int))
  | rest => long_to_int (clamp_long (digits_value rest : Int))

/-- The text `expected argument to "cd"` of line 299, with its newline. -/
def cd_message : String :=
  "expected argument to " ++ String.mk [Char.ofNat 34, 'c', 'd', Char.ofNat 34, '\n']

/-- Lines 280-335. Reading `args[i]` for `i` up to the length of the vector gives the token
or the NULL of the end; `strcmp` and `atoi` on NULL are undefined. -/
def execute_command (s : Shell) (args : List String) : Option Outcome :=
  match args[0]? with
  | none => none
  | some a0 =>
    if a0 = "exit" then some (Outcome.exited 0)
    else if a0 = "history" then
      if args[1]? = some "set" then
        match args[2]? with
        | none => none
        | some a2 =>
          (set_history_size s.cmdHistory (atoi a2)).map fun h =>
            Outcome.returned { s with cmdHistory := h } [] none
      else (print_history s.cmdHistory).map fun out => Outcome.returned s out none
    else if a0 = "cd" then
      match args[1]? with
      | none => some (Outcome.returned s [cd_message] none)
      | some dir =>
        if dir ∈ s.dirs then some (Outcome.returned { s with cwd := dir } [] none)
        else some (Outcome.returned s ["cd failed: No such file or directory\n"] none)
    else
      (handle_dollor_value s.sh args).bind fun r =>
        (if s.batch_mode_on = 0 then add_command_to_history s.cmdHistory r.2
          else some s.cmdHistory).bind fun h =>
          some (Outcome.returned { s with sh := r.1, cmdHistory := h } [] (some r.2))

/-- What the body of the read loop does with one line. -/
inductive LineResult where
  | piped (run : PipeRun) : LineResult
  | listed (out : List String) : LineResult
  | assigned (sh : ShellState) (out : List String) : LineResult
  | executed (o : Outcome) : LineResult
deriving DecidableEq

/-- The body of the loop of interactive_mode (lines 452-472), the same as the body of the
loop of batch_mode (lines 491-505), on the line `input`, with `fds` the descriptors open in
the shell. -/
def interactive_line (s : Shell) (fds : List Nat) (input : String) : Option LineResult :=
  if '|' ∈ input.data then
    (parse_pipe_input input).map fun args => LineResult.piped (execute_pipe_command args fds)
  else if input = "vars\n" then (list_shell_vars s.sh.vars).map LineResult.listed
  else if "local ".data.isPrefixOf input.data ∨ "export ".data.isPrefixOf input.data then
    (handle_var_command s.sh input).map fun r => LineResult.assigned r.1 r.2
  else
    (parse_input input).bind fun args =>
      (execute_command s args).map LineResult.executed

/-- A shell at start: no variables, the history buffer of init_history with the default
capacity 5, interactive. -/
def sampleShell : Shell :=
  { sh := { env := ["HOME=/root"], vars := VarStore.empty },
    cmdHistory := init_history (cmdHistory0 5), batch_mode_on := 0, cwd := "/", dirs := ["/tmp"] }

/-! ## Index arithmetic of the ring -/

theorem mod_wrap (x c : Nat) (h : x < 2 * c) :
    x % c = if x < c then x else x - c := by
  split
  · exact Nat.mod_eq_of_lt (by assumption)
  · rw [Nat.mod_eq_sub_mod (by omega)]
    exact Nat.mod_eq_of_lt (by omega)

theorem c_mod_nat (a b : Nat) (hb : 0 < b) :
    c_mod (a : Int) (b : Int) = some (((a % b : Nat)) : Int) := by
  unfold c_mod
  have : (b : Int) ≠ 0 := by omega
  simp only [this, if_false]
  rw [Int.tmod_eq_emod (by omega) (by omega)]
  rfl

theorem load_nat (a : List Slot) (n : Nat) :
    load a (n : Int) = match a[n]? with
      | some Slot.indet => none
      | r => r := by
  unfold load
  have : ¬ ((n : Int) < 0) := by omega
  simp [this]

theorem loadStr_nat (a : List Slot) (n : Nat) (s : String) :
    loadStr a (n : Int) = some s ↔ a[n]? = some (Slot.str s) := by
  unfold loadStr
  rw [load_nat]
  cases h : a[n]? with
  | none => simp
  | some v => cases v <;> simp

theorem cell_nat (h : History) (hwf : WF h) (j : Nat) (s : String) :
    cell h (j : Int) = some s ↔
      h.commands[(h.start.toNat + j) % h.capacity.toNat]? = some (Slot.str s) := by
  have h1 := hwf.cap_pos
  have h2 := hwf.start_lo
  have e1 : h.start + (j : Int) = ((h.start.toNat + j : Nat) : Int) := by
    push_cast
    omega
  have e2 : h.capacity = ((h.capacity.toNat : Nat) : Int) := by omega
  unfold cell
  rw [e1]
  conv_lhs => rw [e2]
  rw [c_mod_nat _ _ (by omega)]
  simp only [Option.some_bind]
  exact loadStr_nat _ _ _

/-! ## The window of entries -/

theorem entries_loop_spec (h : History) : ∀ (n : Nat) (i : Int) (es : List String),
    entries_loop h n i = some es ↔
      es.length = n ∧ ∀ j (hj : j < es.length), cell h (i + (j : Int)) = some es[j] := by
  intro n
  induction n with
  | zero =>
    intro i es
    simp only [entries_loop]
    constructor
    · intro he
      cases he
      simp
    · rintro ⟨hl, -⟩
      have : es = [] := List.length_eq_zero.mp hl
      simp [this]
  | succ n ih =>
    intro i es
    simp only [entries_loop, bind, pure]
    constructor
    · intro he
      cases h1 : c_mod (h.start + i) h.capacity with
      | none => simp [h1] at he
      | some idx =>
        cases h2 : loadStr h.commands idx with
        | none => simp [h1, h2] at he
        | some s =>
          cases h3 : entries_loop h n (i + 1) with
          | none => simp [h1, h2, h3] at he
          | some rest =>
            simp [h1, h2, h3] at he
            subst he
            obtain ⟨hl, hc⟩ := (ih (i + 1) rest).mp h3
            refine ⟨by simp [hl], ?_⟩
            intro j hj
            cases j with
            | zero => simp [cell, h1, h2]
            | succ j =>
              have := hc j (by simpa using hj)
              simp only [List.getElem_cons_succ]
              rw [← this]
              congr 1
              push_cast
              omega
    · rintro ⟨hl, hc⟩
      cases es with
      | nil => simp at hl
      | cons s rest =>
        have h0 := hc 0 (by simp)
        simp only [cell, Nat.cast_zero, add_zero, List.getElem_cons_zero] at h0
        cases h1 : c_mod (h.start + i) h.capacity with
        | none => simp [h1] at h0
        | some idx =>
          simp only [h1, Option.some_bind] at h0
          have h3 : entries_loop h n (i + 1) = some rest := by
            apply (ih (i + 1) rest).mpr
            refine ⟨by simpa using hl, ?_⟩
            intro j hj
            have := hc (j + 1) (by simpa using hj)
            simp only [List.getElem_cons_succ] at this
            rw [← this]
            congr 1
            push_cast
            omega
          simp [h0, h3]

theorem entries_iff_window (h : History) (es : List String) :
    entries h = some es ↔ Window h es := by
  unfold entries Window
  rw [entries_loop_spec]
  simp

theorem print_history_loop_eq (h : History) : ∀ (n : Nat) (i : Int),
    print_history_loop h n i = (entries_loop h n i).map (numbered i) := by
  intro n
  induction n with
  | zero => intro i; simp [print_history_loop, entries_loop, numbered]
  | succ n ih =>
    intro i
    simp only [print_history_loop, entries_loop, bind, pure, ih]
    cases c_mod (h.start + i) h.capacity <;> simp
    cases loadStr h.commands _ <;> simp
    cases entries_loop h n (i + 1) <;> simp [numbered]

theorem numbered_length (es : List String) : ∀ i, (numbered i es).length = es.length := by
  induction es with
  | nil => intro i; rfl
  | cons s rest ih => intro i; simp [numbered, ih]

theorem numbered_getElem? (es : List String) : ∀ (i : Int) (j : Nat),
    (numbered i es)[j]? = es[j]?.map (fmtLine (i + (j : Int) + 1)) := by
  induction es with
  | nil => intro i j; simp [numbered]
  | cons s rest ih =>
    intro i j
    cases j with
    | zero => simp [numbered]
    | succ j =>
      have e : i + 1 + (j : Int) = i + ((j + 1 : Nat) : Int) := by
        push_cast
        omega
      simp only [numbered, List.getElem?_cons_succ, ih, e]

theorem print_history_eq (h : History) (es : List String) (hes : entries h = some es)
    (hz : h.set_zero ≠ 1) : print_history h = some (numbered 0 es) := by
  unfold print_history
  unfold entries at hes
  simp [hz, print_history_loop_eq, hes]

/-! ## Recording a command -/

theorem window_zero (h : History) (hwf : WF h) (es : List String) (hw : Window h es)
    (hc : 0 < h.count) : ∃ s, es.head? = some s ∧ loadStr h.commands h.start = some s := by
  obtain ⟨hl, hcell⟩ := hw
  cases es with
  | nil => simp at hl; omega
  | cons s rest =>
    refine ⟨s, rfl, ?_⟩
    have h0 := hcell 0 (by simp)
    have h1 := hwf.cap_pos
    have h2 := hwf.start_lo
    have h3 := hwf.start_hi
    rw [cell_nat h hwf] at h0
    simp only [List.getElem_cons_zero, add_zero] at h0
    rw [Nat.mod_eq_of_lt (by omega)] at h0
    have e : h.start = ((h.start.toNat : Nat) : Int) := by omega
    rw [e, loadStr_nat]
    exact h0

theorem ring_prev_lt (s c : Nat) (hs : s < c) : (s + c - 1) % c < c :=
  Nat.mod_lt _ (by omega)

theorem ring_prev_succ (s c j : Nat) (hs : s < c) (hj : j + 1 < c) :
    ((s + c - 1) % c + (j + 1)) % c = (s + j) % c := by
  have e1 := mod_wrap (s + c - 1) c (by omega)
  have e2 := mod_wrap (s + j) c (by omega)
  rw [e1, e2]
  split_ifs with h1 h2
  · rw [mod_wrap _ c (by omega)]
    split_ifs <;> omega
  · rw [mod_wrap _ c (by omega)]
    split_ifs <;> omega
  · rw [mod_wrap _ c (by omega)]
    split_ifs <;> omega
  · rw [mod_wrap _ c (by omega)]
    split_ifs <;> omega

theorem ring_prev_ne (s c j : Nat) (hs : s < c) (hj : j + 1 < c) :
    (s + c - 1) % c ≠ (s + j) % c := by
  have e1 := mod_wrap (s + c - 1) c (by omega)
  have e2 := mod_wrap (s + j) c (by omega)
  rw [e1, e2]
  split_ifs <;> omega

theorem add_command_to_history_pushed (h : History) (hwf : WF h) (es : List String)
    (hes : Window h es) (a : String) (r : List String) (ha : a ≠ "")
    (hne : es.head? ≠ some (joinArgs (a :: r)))
    (hinit : h.commands[(h.start.toNat + h.capacity.toNat - 1) % h.capacity.toNat]?
      ≠ some Slot.indet) :
    add_command_to_history h (a :: r) = some (pushed h (joinArgs (a :: r))) := by
  have h1 := hwf.cap_pos
  have h2 := hwf.start_lo
  have h3 := hwf.start_hi
  have h4 := hwf.len
  have hp := ring_prev_lt h.start.toNat h.capacity.toNat (by omega)
  have hdup : (if 0 < h.count then
      (loadStr h.commands h.start).map (fun s => decide (s = joinArgs (a :: r)))
      else some false) = some false := by
    split
    · rename_i hc
      obtain ⟨s, hs1, hs2⟩ := window_zero h hwf es hes hc
      rw [hs2]
      simp only [Option.map_some', Option.some.injEq, decide_eq_false_iff_not]
      intro he
      exact hne (he ▸ hs1)
    · rfl
  have e1 : h.start - 1 + h.capacity =
      ((h.start.toNat + h.capacity.toNat - 1 : Nat) : Int) := by omega
  have e2 : h.capacity = ((h.capacity.toNat : Nat) : Int) := by omega
  have hmod : c_mod (h.start - 1 + h.capacity) h.capacity =
      some (((h.start.toNat + h.capacity.toNat - 1) % h.capacity.toNat : Nat) : Int) := by
    rw [e1]
    conv_lhs => rw [e2]
    exact c_mod_nat _ _ (by omega)
  have hload : ∃ v, load h.commands
      (((h.start.toNat + h.capacity.toNat - 1) % h.capacity.toNat : Nat) : Int) = some v := by
    rw [load_nat]
    have hlt : (h.start.toNat + h.capacity.toNat - 1) % h.capacity.toNat < h.commands.length := by
      omega
    rw [List.getElem?_eq_getElem hlt] at hinit ⊢
    cases hv : h.commands[(h.start.toNat + h.capacity.toNat - 1) % h.capacity.toNat] with
    | null => exact ⟨_, rfl⟩
    | str s => exact ⟨_, rfl⟩
    | indet => simp [hv] at hinit
  obtain ⟨v, hv⟩ := hload
  have hstore : store h.commands
      (((h.start.toNat + h.capacity.toNat - 1) % h.capacity.toNat : Nat) : Int)
      (Slot.str (joinArgs (a :: r))) =
      some (h.commands.set ((h.start.toNat + h.capacity.toNat - 1) % h.capacity.toNat)
        (Slot.str (joinArgs (a :: r)))) := by
    unfold store
    rw [Int.toNat_ofNat, if_pos ⟨Int.ofNat_nonneg _, by omega⟩]
  simp only [add_command_to_history, ha, if_false, hdup, Option.some_bind, hmod, hv, hstore]
  rfl

theorem pushed_wf (h : History) (hwf : WF h) (command : String) : WF (pushed h command) := by
  have h1 := hwf.cap_pos
  have h2 := hwf.start_lo
  have h3 := hwf.start_hi
  have h4 := hwf.len
  have h5 := hwf.count_lo
  have h6 := hwf.count_hi
  have hp := ring_prev_lt h.start.toNat h.capacity.toNat (by omega)
  constructor
  · exact h1
  · simp [pushed, h4]
  · simp only [pushed]
    omega
  · simp only [pushed]
    omega
  · simp only [pushed]
    split <;> omega
  · simp only [pushed]
    split <;> omega

theorem pushed_window (h : History) (hwf : WF h) (es : List String) (hes : Window h es)
    (command : String) :
    Window (pushed h command) ((command :: es).take h.capacity.toNat) := by
  have h1 := hwf.cap_pos
  have h2 := hwf.start_lo
  have h3 := hwf.start_hi
  have h4 := hwf.len
  have h5 := hwf.count_lo
  have h6 := hwf.count_hi
  have hp := ring_prev_lt h.start.toNat h.capacity.toNat (by omega)
  obtain ⟨hl, hcell⟩ := hes
  constructor
  · simp only [List.length_take, List.length_cons, hl, pushed]
    split <;> omega
  · intro j hj
    rw [cell_nat _ (pushed_wf h hwf command)]
    simp only [List.length_take, List.length_cons] at hj
    simp only [pushed, Int.toNat_ofNat, List.getElem_take]
    cases j with
    | zero =>
      simp only [add_zero, List.getElem_cons_zero]
      rw [Nat.mod_eq_of_lt hp, List.getElem?_set_self (by omega)]
    | succ j =>
      simp only [List.getElem_cons_succ]
      rw [ring_prev_succ _ _ _ (by omega) (by omega),
        List.getElem?_set_ne (ring_prev_ne _ _ _ (by omega) (by omega))]
      exact (cell_nat h hwf j _).mp (hcell j (by omega))

theorem take_append_take (c : Nat) (l m : List String) :
    (l ++ m.take c).take c = (l ++ m).take c := by
  rw [List.take_append_eq_append_take, List.take_append_eq_append_take, List.take_take]
  congr 2
  omega

theorem pushed_initialised (h : History) (command : String)
    (hinit : Slot.indet ∉ h.commands) : Slot.indet ∉ (pushed h command).commands := by
  intro hm
  rcases List.mem_or_eq_of_mem_set hm with h1 | h1
  · exact hinit h1
  · cases h1

theorem record_all_spec : ∀ (cmds : List (List String)) (h : History) (es : List String),
    WF h → Window h es → Slot.indet ∉ h.commands →
    (∀ args ∈ cmds, ∃ a r, args = a :: r ∧ a ≠ "") →
    (cmds.map joinArgs).Nodup →
    (∀ args ∈ cmds, es.head? ≠ some (joinArgs args)) →
    ∃ h1, record_all h cmds = some h1 ∧ WF h1 ∧ h1.capacity = h.capacity ∧
      h1.set_zero = h.set_zero ∧ Slot.indet ∉ h1.commands ∧
      Window h1 (((cmds.map joinArgs).reverse ++ es).take h.capacity.toNat) := by
  intro cmds
  induction cmds with
  | nil =>
    intro h es hwf hw hinit _ _ _
    refine ⟨h, rfl, hwf, rfl, rfl, hinit, ?_⟩
    have hl : es.length ≤ h.capacity.toNat := by
      have := hw.1
      have := hwf.count_hi
      omega
    simpa [List.take_of_length_le hl] using hw
  | cons args rest ih =>
    intro h es hwf hw hinit hok hd hhead
    obtain ⟨a, r, rfl, ha⟩ := hok _ (List.mem_cons_self _ _)
    have hadd := add_command_to_history_pushed h hwf es hw a r ha
      (hhead _ (List.mem_cons_self _ _))
      (fun hc => hinit (List.getElem?_mem hc))
    have hcap : 0 < h.capacity.toNat := by
      have := hwf.cap_pos
      omega
    simp only [List.map_cons, List.nodup_cons] at hd
    obtain ⟨h1, hr, hwf1, hc1, hz1, hi1, hw1⟩ :=
      ih (pushed h (joinArgs (a :: r))) ((joinArgs (a :: r) :: es).take h.capacity.toNat)
        (pushed_wf h hwf _) (pushed_window h hwf es hw _) (pushed_initialised h _ hinit)
        (fun x hx => hok x (List.mem_cons_of_mem _ hx)) hd.2
        (by
          intro x hx
          obtain ⟨n, hn⟩ : ∃ n, h.capacity.toNat = n + 1 := ⟨h.capacity.toNat - 1, by omega⟩
          rw [hn]
          simp only [List.take_succ_cons, List.head?_cons, ne_eq, Option.some.injEq]
          intro he
          exact hd.1 (he ▸ List.mem_map_of_mem _ hx))
    refine ⟨h1, ?_, hwf1, hc1, hz1, hi1, ?_⟩
    · simp only [record_all, hadd, Option.some_bind, hr]
    · have e : (pushed h (joinArgs (a :: r))).capacity = h.capacity := rfl
      rw [e, take_append_take] at hw1
      simpa using hw1

theorem recordable_iff (args : List String) (h : args ≠ [] ∧ args.head? ≠ some "") :
    ∃ a r, args = a :: r ∧ a ≠ "" := by
  cases args with
  | nil => exact absurd rfl h.1
  | cons a r => exact ⟨a, r, rfl, fun he => h.2 (by simp [he])⟩

theorem init_history_wf (c : Int) (hc : 0 < c) : WF (init_history (cmdHistory0 c)) := by
  constructor <;> simp [init_history, cmdHistory0, hc]
  omega

theorem init_history_window (c : Int) : Window (init_history (cmdHistory0 c)) [] := by
  constructor
  · simp [init_history, cmdHistory0]
  · intro j hj
    simp at hj

theorem init_history_initialised (c : Int) :
    Slot.indet ∉ (init_history (cmdHistory0 c)).commands := by
  simp [init_history, cmdHistory0]

/-- C1, amended. On the buffer init_history makes of the initial `cmdHistory` with capacity
`c > 0`, after add_command_to_history was called with `n ≤ c` vectors, each of them
non-empty with a non-empty first token and their single-space joins pairwise distinct,
print_history emits exactly `n` lines and line `i + 1` is `i + 1) ` followed by the join
of the vector recorded at position `n - 1 - i`: the most recent command is line 1. -/
theorem print_history_after_records (c : Int) (hc : 0 < c) (cmds : List (List String))
    (hn : (cmds.length : Int) ≤ c)
    (hok : ∀ args ∈ cmds, args ≠ [] ∧ args.head? ≠ some "")
    (hd : (cmds.map joinArgs).Nodup) :
    ∃ h lines, record_all (init_history (cmdHistory0 c)) cmds = some h ∧
      print_history h = some lines ∧ lines.length = cmds.length ∧
      ∀ i (hi : i < cmds.length),
        lines[i]? = some (fmtLine ((i : Int) + 1) (joinArgs (cmds[cmds.length - 1 - i]))) := by
  obtain ⟨h, hr, -, -, hz, -, hw⟩ := record_all_spec cmds (init_history (cmdHistory0 c)) []
    (init_history_wf c hc) (init_history_window c) (init_history_initialised c)
    (fun args hm => recordable_iff args (hok args hm)) hd (by simp)
  have hl : ((cmds.map joinArgs).reverse ++ []).length ≤
      (init_history (cmdHistory0 c)).capacity.toNat := by
    simp only [init_history, cmdHistory0, List.append_nil, List.length_reverse, List.length_map]
    omega
  rw [List.take_of_length_le hl, List.append_nil] at hw
  have hp := print_history_eq h _ ((entries_iff_window h _).mpr hw)
    (by rw [hz]; simp [init_history, cmdHistory0])
  refine ⟨h, _, hr, hp, by simp [numbered_length], ?_⟩
  intro i hi
  rw [numbered_getElem?, List.getElem?_reverse (by simpa using hi)]
  simp only [List.length_map, List.getElem?_map, zero_add]
  rw [List.getElem?_eq_getElem (by omega)]
  rfl

/-- Witness of C1 amended: capacity 3, the commands `ls -l` and `pwd`. -/
theorem print_history_after_records_witness :
    ∃ h lines, record_all (init_history (cmdHistory0 3)) [["ls", "-l"], ["pwd"]] = some h ∧
      print_history h = some lines ∧ lines.length = [["ls", "-l"], ["pwd"]].length ∧
      ∀ i (_ : i < [["ls", "-l"], ["pwd"]].length),
        lines[i]? = some (fmtLine ((i : Int) + 1)
          (joinArgs ([["ls", "-l"], ["pwd"]][[["ls", "-l"], ["pwd"]].length - 1 - i]))) :=
  print_history_after_records 3 (by decide) [["ls", "-l"], ["pwd"]] (by decide)
    (by decide) (by decide)

/-- C1 as stated fails: the vector whose only token is the empty string (what the line
`$UNSET` expands to) has a join, the empty string, yet is not recorded, so that
print_history emits no line instead of one. -/
theorem print_history_after_records_counterexample :
    (([[""]] : List (List String)).map joinArgs).Nodup ∧
      (([[""]] : List (List String)).length : Int) ≤ 5 ∧
      (record_all (init_history (cmdHistory0 5)) [[""]]).bind print_history = some [] := by
  decide

/-! ## No-op cases of add_command_to_history -/

theorem add_command_to_history_dup (h : History) (args : List String)
    (hc : 0 < h.count) (hs : loadStr h.commands h.start = some (joinArgs args)) :
    add_command_to_history h args = some h := by
  cases args with
  | nil => rfl
  | cons a r =>
    by_cases ha : a = ""
    · simp [add_command_to_history, ha]
    · simp [add_command_to_history, ha, hc, hs]

theorem add_command_to_history_repeat (h : History) (hwf : WF h) (args : List String)
    (h1 : History) (hadd : add_command_to_history h args = some h1) :
    add_command_to_history h1 args = some h1 := by
  cases args with
  | nil =>
    cases hadd
    rfl
  | cons a r =>
    by_cases ha : a = ""
    · simp only [add_command_to_history, ha, if_true, Option.some.injEq] at hadd
      subst hadd
      simp [add_command_to_history, ha]
    · simp only [add_command_to_history, ha, if_false] at hadd
      cases hd : (if 0 < h.count then
          (loadStr h.commands h.start).map (fun s => decide (s = joinArgs (a :: r)))
          else some false) with
      | none => simp [hd] at hadd
      | some dup =>
        rw [hd] at hadd
        simp only [Option.some_bind] at hadd
        cases dup with
        | true =>
          simp only [if_true, Option.some.injEq] at hadd
          subst hadd
          simp only [add_command_to_history, ha, if_false, hd, Option.some_bind, if_true]
        | false =>
          simp only [Bool.false_eq_true, if_false] at hadd
          cases hm : c_mod (h.start - 1 + h.capacity) h.capacity with
          | none => simp [hm] at hadd
          | some st =>
            cases hl : load h.commands st with
            | none => simp [hm, hl] at hadd
            | some old =>
              cases hst : store h.commands st (Slot.str (joinArgs (a :: r))) with
              | none => simp [hm, hl, hst] at hadd
              | some cmds =>
                simp only [hm, hl, hst, Option.some_bind, Option.some.injEq] at hadd
                subst hadd
                have hcnt : 0 < (if h.count < h.capacity then h.count + 1 else h.count) := by
                  have := hwf.cap_pos
                  have := hwf.count_lo
                  split <;> omega
                apply add_command_to_history_dup _ _ hcnt
                unfold store at hst
                split at hst
                · rename_i hb
                  cases hst
                  have e : st = ((st.toNat : Nat) : Int) := by omega
                  show loadStr (h.commands.set st.toNat _) st = _
                  conv_lhs => rw [e]
                  rw [Int.toNat_ofNat, loadStr_nat, List.getElem?_set_self hb.2]
                · cases hst

/-- C3. The function add_command_to_history returns the history it was given (count, entries
and their order unchanged) when the argument vector is empty, and when the single-space join
of the vector equals the most recent entry; and a command recorded once leaves the history
as it is when it is recorded a second time in a row. -/
theorem add_command_to_history_noop (h : History) (args : List String) :
    add_command_to_history h [] = some h ∧
    (WF h → ∀ es, entries h = some es → es.head? = some (joinArgs args) →
      add_command_to_history h args = some h) ∧
    (WF h → ∀ h1, add_command_to_history h args = some h1 →
      add_command_to_history h1 args = some h1) := by
  refine ⟨rfl, ?_, ?_⟩
  · intro hwf es hes hhead
    have hw := (entries_iff_window h es).mp hes
    have hc : 0 < h.count := by
      have := hw.1
      cases es with
      | nil => simp at hhead
      | cons s rest =>
        simp at this
        omega
    obtain ⟨s, hs1, hs2⟩ := window_zero h hwf es hw hc
    rw [hhead] at hs1
    cases hs1
    exact add_command_to_history_dup h args hc hs2
  · intro hwf h1 hadd
    exact add_command_to_history_repeat h hwf args h1 hadd

theorem sampleHistory_wf : WF sampleHistory :=
  ⟨by decide, by decide, by decide, by decide, by decide, by decide⟩

/-- Witness of C3 on the wrapped two-entry buffer `ls`, `pwd` of capacity 3: `ls` is the most
recent entry and recording it again changes nothing; `cd x` is stored once, not twice. -/
theorem add_command_to_history_noop_witness :
    add_command_to_history sampleHistory ["ls"] = some sampleHistory ∧
    add_command_to_history (pushed sampleHistory "cd x") ["cd", "x"] =
      some (pushed sampleHistory "cd x") :=
  ⟨(add_command_to_history_noop sampleHistory ["ls"]).2.1 sampleHistory_wf ["ls", "pwd"]
      (by decide) (by decide),
   (add_command_to_history_noop sampleHistory ["cd", "x"]).2.2 sampleHistory_wf
      (pushed sampleHistory "cd x") (by decide)⟩

/-! ## Recording into a full buffer -/

theorem window_slot_str (h : History) (hwf : WF h) (es : List String) (hw : Window h es)
    (j : Nat) (hj : j < es.length) :
    h.commands[(h.start.toNat + j) % h.capacity.toNat]? ≠ some Slot.indet := by
  have := (cell_nat h hwf j _).mp (hw.2 j hj)
  rw [this]
  simp

/-- C4, amended. On a full buffer (count = capacity = c > 0) whose entries are `es`,
recording a non-empty vector with a non-empty first token whose join `s` differs from the
most recent entry makes `s` entry 1, moves the previous entries 1..c-1 to positions 2..c in
the same order, drops exactly the previous oldest entry, and leaves count = c = capacity. -/
theorem add_command_to_history_full (h : History) (es : List String) (args : List String)
    (hwf : WF h) (hfull : h.count = h.capacity) (hes : entries h = some es)
    (hargs : args ≠ [] ∧ args.head? ≠ some "")
    (hne : es.head? ≠ some (joinArgs args)) :
    ∃ h1, add_command_to_history h args = some h1 ∧
      entries h1 = some (joinArgs args :: es.dropLast) ∧
      h1.count = h.capacity ∧ h1.capacity = h.capacity := by
  obtain ⟨a, r, rfl, ha⟩ := recordable_iff args hargs
  have hw := (entries_iff_window h es).mp hes
  have hc := hwf.cap_pos
  have hl : es.length = h.capacity.toNat := by rw [hw.1, hfull]
  have hslot : h.commands[(h.start.toNat + h.capacity.toNat - 1) % h.capacity.toNat]?
      ≠ some Slot.indet := by
    have e : h.start.toNat + h.capacity.toNat - 1 = h.start.toNat + (h.capacity.toNat - 1) := by
      omega
    rw [e]
    exact window_slot_str h hwf es hw _ (by omega)
  refine ⟨pushed h (joinArgs (a :: r)),
    add_command_to_history_pushed h hwf es hw a r ha hne hslot, ?_, ?_, rfl⟩
  · rw [entries_iff_window]
    have := pushed_window h hwf es hw (joinArgs (a :: r))
    obtain ⟨n, hn⟩ : ∃ n, h.capacity.toNat = n + 1 := ⟨h.capacity.toNat - 1, by omega⟩
    rw [hn, List.take_succ_cons] at this
    rw [List.dropLast_eq_take, hl, hn]
    exact this
  · simp [pushed, hfull]

/-- Witness of C4: the full buffer `b`, `a` of capacity 2 receives `c d`. -/
theorem add_command_to_history_full_witness :
    ∃ h1, add_command_to_history fullHistory ["c", "d"] = some h1 ∧
      entries h1 = some (joinArgs ["c", "d"] :: ["b", "a"].dropLast) ∧
      h1.count = fullHistory.capacity ∧ h1.capacity = fullHistory.capacity :=
  add_command_to_history_full fullHistory ["b", "a"] ["c", "d"]
    ⟨by decide, by decide, by decide, by decide, by decide, by decide⟩
    (by decide) (by decide) (by decide) (by decide)

/-- C4 as stated fails: on the full buffer `b`, `a` the vector `[""]`, whose join is the
empty string and so differs from the most recent entry `b`, is not stored: the entries stay
`b`, `a` and the empty string is not entry 1. -/
theorem add_command_to_history_full_counterexample :
    fullHistory.count = fullHistory.capacity ∧ entries fullHistory = some ["b", "a"] ∧
      ["b", "a"].head? ≠ some (joinArgs [""]) ∧
      (add_command_to_history fullHistory [""]).bind entries = some ["b", "a"] := by
  decide

/-! ## Resizing -/

theorem cell_load (h : History) (i : Int) (s : String) (hc : cell h i = some s) :
    ∃ idx, c_mod (h.start + i) h.capacity = some idx ∧
      load h.commands idx = some (Slot.str s) := by
  unfold cell at hc
  cases hm : c_mod (h.start + i) h.capacity with
  | none => simp [hm] at hc
  | some idx =>
    refine ⟨idx, rfl, ?_⟩
    simp only [hm, Option.some_bind, loadStr] at hc
    cases hl : load h.commands idx with
    | none => simp [hl] at hc
    | some v =>
      cases v with
      | null => simp [hl] at hc
      | indet => simp [hl] at hc
      | str t =>
        simp only [hl, Option.some.injEq] at hc
        rw [hc]

theorem free_loop_ok (h : History) : ∀ (n : Nat) (i : Int),
    (∀ j : Nat, j < n → ∃ s, cell h (i + (j : Int)) = some s) → free_loop h n i = some () := by
  intro n
  induction n with
  | zero => intro i _; rfl
  | succ n ih =>
    intro i hc
    obtain ⟨s, hs⟩ := hc 0 (by omega)
    simp only [Nat.cast_zero, add_zero] at hs
    obtain ⟨idx, h1, h2⟩ := cell_load h i s hs
    simp only [free_loop, bind, pure, h1, h2, Option.some_bind]
    apply ih
    intro j hj
    obtain ⟨t, ht⟩ := hc (j + 1) (by omega)
    refine ⟨t, ?_⟩
    rw [← ht]
    congr 1
    push_cast
    omega

theorem copy_loop_spec (h : History) (es : List String)
    (hcell : ∀ j (hj : j < es.length), cell h (j : Int) = some es[j]) :
    ∀ (n i : Nat) (nc : List Slot), i + n ≤ es.length → i + n ≤ nc.length →
    ∃ nc1, copy_loop h nc n (i : Int) = some nc1 ∧ nc1.length = nc.length ∧
      ∀ k, nc1[k]? = if i ≤ k ∧ k < i + n then es[k]?.map Slot.str else nc[k]? := by
  intro n
  induction n with
  | zero =>
    intro i nc _ _
    refine ⟨nc, rfl, rfl, ?_⟩
    intro k
    rw [if_neg (by omega)]
  | succ n ih =>
    intro i nc h1 h2
    obtain ⟨idx, hm, hl⟩ := cell_load h i _ (hcell i (by omega))
    have hst : store nc (i : Int) (Slot.str es[i]) = some (nc.set i (Slot.str es[i])) := by
      unfold store
      rw [Int.toNat_ofNat, if_pos ⟨Int.ofNat_nonneg _, by omega⟩]
    obtain ⟨nc1, hc1, hl1, hk1⟩ := ih (i + 1) (nc.set i (Slot.str es[i])) (by omega)
      (by simp; omega)
    refine ⟨nc1, ?_, by simpa using hl1, ?_⟩
    · simp only [copy_loop, bind, pure, hm, hl, hst, Option.some_bind]
      have e : (i : Int) + 1 = ((i + 1 : Nat) : Int) := by push_cast; rfl
      rw [e]
      exact hc1
    · intro k
      rw [hk1 k]
      by_cases hki : k = i
      · subst hki
        have c1 : ¬ (k + 1 ≤ k ∧ k < k + 1 + n) := by omega
        have c2 : k ≤ k ∧ k < k + (n + 1) := by omega
        rw [if_neg c1, if_pos c2, List.getElem?_set_self (by omega),
          List.getElem?_eq_getElem (by omega)]
        rfl
      · rw [List.getElem?_set_ne (Ne.symm hki)]
        by_cases hin : i + 1 ≤ k ∧ k < i + 1 + n
        · have c2 : i ≤ k ∧ k < i + (n + 1) := by omega
          rw [if_pos hin, if_pos c2]
        · have c2 : ¬ (i ≤ k ∧ k < i + (n + 1)) := by omega
          rw [if_neg hin, if_neg c2]

theorem set_history_size_spec (h : History) (k : Int) (es : List String)
    (hk : 0 < k) (hwf : WF h) (hes : entries h = some es) :
    ∃ h1, set_history_size h k = some h1 ∧ h1.capacity = k ∧
      h1.count = min (es.length : Int) k ∧
      entries h1 = some (es.take k.toNat) ∧
      ((es.length : Int) ≤ k → entries h1 = some es) ∧ h1.set_zero = 0 := by
  have hw := (entries_iff_window h es).mp hes
  obtain ⟨hl, hcell⟩ := hw
  have hcl := hwf.count_lo
  have hcnt : h.count = (es.length : Int) := by omega
  have hnew : (if h.count < k then h.count else k) = min (es.length : Int) k := by
    rw [hcnt]
    split <;> omega
  have hfree : free_loop h h.count.toNat 0 = some () := by
    apply free_loop_ok
    intro j hj
    exact ⟨es[j], by simpa using hcell j (by omega)⟩
  obtain ⟨nc1, hc1, hl1, hk1⟩ := copy_loop_spec h es hcell (min (es.length : Int) k).toNat 0
    (List.replicate k.toNat Slot.indet) (by omega) (by simp)
  have hres : set_history_size h k =
      some (History.mk nc1 k (min (es.length : Int) k) 0 0) := by
    have hk0 : k ≠ 0 := by omega
    simp only [set_history_size, hk0, if_false, hnew, bind, pure, hfree]
    simp only [Nat.cast_zero] at hc1
    rw [hc1]
    rfl
  have hwf1 : WF (History.mk nc1 k (min (es.length : Int) k) 0 0) := by
    constructor
    · exact hk
    · simpa using hl1
    · exact le_refl _
    · exact hk
    · show 0 ≤ min (es.length : Int) k
      omega
    · show min (es.length : Int) k ≤ k
      omega
  have hw1 : Window (History.mk nc1 k (min (es.length : Int) k) 0 0) (es.take k.toNat) := by
    constructor
    · simp only [List.length_take]
      omega
    · intro j hj
      simp only [List.length_take] at hj
      rw [cell_nat _ hwf1]
      simp only [Int.toNat_zero, zero_add, List.getElem_take]
      rw [Nat.mod_eq_of_lt (by omega), hk1 j, if_pos (by omega),
        List.getElem?_eq_getElem (by omega)]
      rfl
  refine ⟨_, hres, rfl, rfl, (entries_iff_window _ _).mpr hw1, ?_, rfl⟩
  intro hle
  rw [(entries_iff_window _ _).mpr hw1, List.take_of_length_le (by omega)]

/-- C2. For every `k > 0` and every well-formed history whose entries, most recent first, are
`es` (whatever the position of `start` in the ring), set_history_size returns a buffer of
capacity `k` whose entries, most recent first, are the first `min (length es) k` entries of
`es` in the same order: all of them when `k` is at least their number, the `k` most recent
ones otherwise. -/
theorem set_history_size_entries (h : History) (k : Int) (es : List String)
    (hk : 0 < k) (hwf : WF h) (hes : entries h = some es) :
    ∃ h1, set_history_size h k = some h1 ∧ h1.capacity = k ∧
      h1.count = min (es.length : Int) k ∧
      entries h1 = some (es.take k.toNat) ∧
      ((es.length : Int) ≤ k → entries h1 = some es) := by
  obtain ⟨h1, e1, e2, e3, e4, e5, _⟩ := set_history_size_spec h k es hk hwf hes
  exact ⟨h1, e1, e2, e3, e4, e5⟩

/-- Witness of C2: the wrapped buffer `ls`, `pwd` of capacity 3 is cut down to capacity 1. -/
theorem set_history_size_entries_witness :
    ∃ h1, set_history_size sampleHistory 1 = some h1 ∧ h1.capacity = 1 ∧
      h1.count = min ((["ls", "pwd"].length : Nat) : Int) 1 ∧
      entries h1 = some (["ls", "pwd"].take (1 : Int).toNat) ∧
      (((["ls", "pwd"].length : Nat) : Int) ≤ 1 → entries h1 = some ["ls", "pwd"]) :=
  set_history_size_entries sampleHistory 1 ["ls", "pwd"] (by decide) sampleHistory_wf
    (by decide)

/-! ## The disabled state -/

theorem add_command_to_history_set_zero (h : History) (args : List String) (h1 : History)
    (hadd : add_command_to_history h args = some h1) : h1.set_zero = h.set_zero := by
  cases args with
  | nil =>
    cases hadd
    rfl
  | cons a r =>
    simp only [add_command_to_history] at hadd
    split at hadd
    · cases hadd
      rfl
    · cases hd : (if 0 < h.count then
          (loadStr h.commands h.start).map (fun s => decide (s = joinArgs (a :: r)))
          else some false) with
      | none => simp [hd] at hadd
      | some dup =>
        rw [hd] at hadd
        simp only [Option.some_bind] at hadd
        split at hadd
        · cases hadd
          rfl
        · cases hm : c_mod (h.start - 1 + h.capacity) h.capacity with
          | none => simp [hm] at hadd
          | some st =>
            cases hl : load h.commands st with
            | none => simp [hm, hl] at hadd
            | some old =>
              cases hst : store h.commands st (Slot.str (joinArgs (a :: r))) with
              | none => simp [hm, hl, hst] at hadd
              | some cmds =>
                simp only [hm, hl, hst, Option.some_bind, Option.some.injEq] at hadd
                subst hadd
                rfl

theorem record_all_set_zero : ∀ (cmds : List (List String)) (h h1 : History),
    record_all h cmds = some h1 → h1.set_zero = h.set_zero := by
  intro cmds
  induction cmds with
  | nil =>
    intro h h1 hr
    cases hr
    rfl
  | cons args rest ih =>
    intro h h1 hr
    simp only [record_all] at hr
    cases ha : add_command_to_history h args with
    | none => simp [ha] at hr
    | some h2 =>
      simp only [ha, Option.some_bind] at hr
      rw [ih h2 h1 hr, add_command_to_history_set_zero h args h2 ha]

/-- The part of C5 the code keeps: after set_history_size(0), whatever is recorded,
print_history emits nothing. -/
theorem print_history_disabled (h h1 h2 : History) (cmds : List (List String))
    (hs : set_history_size h 0 = some h1) (hr : record_all h1 cmds = some h2) :
    print_history h2 = some [] := by
  have hz : h1.set_zero = 1 := by
    simp only [set_history_size, if_true, bind, pure] at hs
    cases hf : free_loop h h.count.toNat 0 with
    | none => simp [hf] at hs
    | some u =>
      simp only [hf, Option.some_bind, Option.some.injEq] at hs
      subst hs
      rfl
  unfold print_history
  rw [record_all_set_zero cmds h1 h2 hr, hz]
  rfl

/-- C5, the failing run: `history set 0`, then `history set 3`, then a command. The resize
leaves the three cells of the new array unwritten (line 108 allocates them, lines 112-115
copy no entry), and add_command_to_history reads cell 2 at line 85 to decide whether to free
it: the run is undefined, and nothing is shown as entry 1. -/
theorem add_command_to_history_after_reenable :
    set_history_size (init_history (cmdHistory0 5)) 0 =
        some { commands := List.replicate 5 Slot.null, capacity := 5, count := 0, start := 0,
               set_zero := 1 } ∧
      ((set_history_size (init_history (cmdHistory0 5)) 0).bind
        fun h => set_history_size h 3) =
        some { commands := List.replicate 3 Slot.indet, capacity := 3, count := 0, start := 0,
               set_zero := 0 } ∧
      (((set_history_size (init_history (cmdHistory0 5)) 0).bind
        fun h => set_history_size h 3).bind
        fun h => add_command_to_history h ["ls"]) = none := by
  decide

theorem find_shell_var_loop_down (nodes : List ShellVar) (name : String)
    (hnext : ∀ i (hi : i < nodes.length), nodes[i].next = if i = 0 then none else some (i - 1)) :
    ∀ (p fuel : Nat), p < fuel → p < nodes.length →
      find_shell_var_loop nodes name fuel (some p) =
        some (findDown (nodes.map (fun nd => nd.name)) name (p + 1)) := by
  intro p
  induction p with
  | zero =>
    intro fuel hf hp
    obtain ⟨f, rfl⟩ : ∃ f, fuel = f + 1 := ⟨fuel - 1, by omega⟩
    have hn := hnext 0 hp
    simp only [find_shell_var_loop, findDown, List.getElem?_eq_getElem hp, List.getElem?_map,
      Option.map_some', Option.some.injEq, if_true] at hn ⊢
    split
    · rfl
    · rw [hn]
      simp [find_shell_var_loop]
  | succ p ih =>
    intro fuel hf hp
    obtain ⟨f, rfl⟩ : ∃ f, fuel = f + 1 := ⟨fuel - 1, by omega⟩
    have hn := hnext (p + 1) hp
    simp only [Nat.add_one_ne_zero, if_false, Nat.add_sub_cancel] at hn
    rw [find_shell_var_loop, findDown]
    simp only [List.getElem?_eq_getElem hp, List.getElem?_map, Option.map_some',
      Option.some.injEq]
    split
    · rfl
    · rw [hn]
      exact ih f (by omega) (by omega)

theorem find_shell_var_eq (s : VarStore) (hs : StoreInv s) (name : String) :
    find_shell_var s s.shellVars name = some (findDown s.names name s.nodes.length) := by
  unfold find_shell_var
  rw [hs.head]
  split
  · rename_i h0
    rw [h0]
    rfl
  · rename_i h0
    rw [find_shell_var_loop_down s.nodes name hs.next _ _ (by omega) (by omega)]
    have : s.nodes.length - 1 + 1 = s.nodes.length := by omega
    rw [this]
    rfl

theorem findDown_lt (names : List String) (name : String) : ∀ (k p : Nat),
    findDown names name k = some p → p < k ∧ names[p]? = some name := by
  intro k
  induction k with
  | zero => intro p h; simp [findDown] at h
  | succ k ih =>
    intro p h
    simp only [findDown] at h
    split at h
    · cases h
      exact ⟨by omega, by assumption⟩
    · obtain ⟨h1, h2⟩ := ih p h
      exact ⟨by omega, h2⟩

theorem findDown_none (names : List String) (name : String) : ∀ (k : Nat),
    findDown names name k = none ↔ ∀ i, i < k → names[i]? ≠ some name := by
  intro k
  induction k with
  | zero => simp [findDown]
  | succ k ih =>
    simp only [findDown]
    split
    · rename_i h
      simp only [false_iff, reduceCtorEq]
      intro hall
      exact hall k (by omega) h
    · rename_i h
      rw [ih]
      constructor
      · intro hall i hi
        by_cases hik : i = k
        · subst hik
          exact h
        · exact hall i (by omega)
      · intro hall i hi
        exact hall i (by omega)

theorem findDown_none_mem (names : List String) (name : String) :
    findDown names name names.length = none ↔ name ∉ names := by
  rw [findDown_none]
  constructor
  · intro hall hm
    obtain ⟨i, hi, he⟩ := List.getElem_of_mem hm
    exact hall i hi (by rw [List.getElem?_eq_getElem hi, he])
  · intro hn i _ he
    exact hn (List.getElem?_mem he)

theorem set_same {α : Type} (l : List α) (q : Nat) (a : α) (h : l[q]? = some a) :
    l.set q a = l := by
  apply List.ext_getElem?
  intro i
  by_cases hi : q = i
  · subst hi
    rw [h, List.getElem?_set_self]
    by_contra hlt
    rw [List.getElem?_eq_none (by omega)] at h
    cases h
  · rw [List.getElem?_set_ne hi]

theorem names_eq_pairs (s : VarStore) : s.names = s.pairs.map Prod.fst := by
  simp [VarStore.names, VarStore.pairs]

theorem pairs_length (s : VarStore) : s.pairs.length = s.nodes.length := by
  simp [VarStore.pairs]

theorem set_shell_var_found (s : VarStore) (hs : StoreInv s) (name value : String) (p : Nat)
    (hf : findDown s.names name s.nodes.length = some p) :
    ∃ s1, set_shell_var s name value = some s1 ∧ StoreInv s1 ∧
      s1.pairs = s.pairs.set p (name, trim_newline value) := by
  have hfind := find_shell_var_eq s hs name
  unfold find_shell_var at hfind
  obtain ⟨hp, hname⟩ := findDown_lt _ _ _ _ hf
  have hnm : s.nodes[p].name = name := by
    simpa [VarStore.names, List.getElem?_eq_getElem hp] using hname
  refine ⟨{ s with nodes := s.nodes.set p { s.nodes[p] with value := trim_newline value } },
    ?_, ?_, ?_⟩
  · simp only [set_shell_var, hfind, hf, Option.some_bind, List.getElem?_eq_getElem hp]
  · constructor
    · simpa using hs.head
    · intro i hi
      simp only [List.length_set] at hi
      simp only [List.getElem_set]
      split
      · rename_i h
        subst h
        exact hs.next p hi
      · exact hs.next i hi
    · intro i hi
      simp only [List.length_set] at hi ⊢
      simp only [List.getElem_set]
      split
      · rename_i h
        subst h
        exact hs.prev p hi
      · exact hs.prev i hi
  · simp only [VarStore.pairs, List.map_set, hnm]

theorem set_shell_var_new (s : VarStore) (hs : StoreInv s) (name value : String)
    (hf : findDown s.names name s.nodes.length = none) :
    ∃ s1, set_shell_var s name value = some s1 ∧ StoreInv s1 ∧
      s1.pairs = s.pairs ++ [(name, trim_newline value)] := by
  have hfind := find_shell_var_eq s hs name
  unfold find_shell_var at hfind
  have hhead := hs.head
  by_cases h0 : s.nodes.length = 0
  · rw [if_pos h0] at hhead
    have hnil : s.nodes = [] := List.length_eq_zero.mp h0
    refine ⟨VarStore.mk (s.nodes ++ [ShellVar.mk name (trim_newline value) s.shellVars none])
      (some s.nodes.length), ?_, ?_, ?_⟩
    · simp only [set_shell_var]
      rw [hfind, hf]
      simp only [Option.some_bind, hhead]
    · constructor
      · simp [hnil]
      · intro i hi
        simp only [hnil, List.nil_append, List.length_singleton] at hi
        have : i = 0 := by omega
        subst this
        simp [hnil, hhead]
      · intro i hi
        simp only [hnil, List.nil_append, List.length_singleton] at hi
        have : i = 0 := by omega
        subst this
        simp [hnil]
    · simp [VarStore.pairs]
  · rw [if_neg h0] at hhead
    have hq : s.nodes.length - 1 < s.nodes.length := by omega
    have hget : (s.nodes ++ [ShellVar.mk name (trim_newline value) s.shellVars none])[
        s.nodes.length - 1]? = some s.nodes[s.nodes.length - 1] := by
      rw [List.getElem?_append_left hq, List.getElem?_eq_getElem hq]
    refine ⟨VarStore.mk
      ((s.nodes ++ [ShellVar.mk name (trim_newline value) s.shellVars none]).set
        (s.nodes.length - 1) { s.nodes[s.nodes.length - 1] with prev := some s.nodes.length })
      (some s.nodes.length), ?_, ?_, ?_⟩
    · simp only [set_shell_var]
      rw [hfind, hf]
      simp only [Option.some_bind]
      rw [hhead] at hget ⊢
      simp only [hget]
    · constructor
      · simp
      · intro i hi
        simp only [List.length_set, List.length_append, List.length_singleton] at hi
        simp only [List.getElem_set]
        split
        · rename_i h
          subst h
          exact hs.next _ hq
        · by_cases hil : i < s.nodes.length
          · rw [List.getElem_append_left hil]
            exact hs.next i hil
          · have hi2 : i = s.nodes.length := by omega
            subst hi2
            rw [List.getElem_append_right (by omega)]
            simp [hhead, h0]
      · intro i hi
        simp only [List.length_set, List.length_append, List.length_singleton] at hi ⊢
        simp only [List.getElem_set]
        split
        · rename_i h
          subst h
          have : s.nodes.length - 1 + 1 < s.nodes.length + 1 := by omega
          simp only [this, if_true, Option.some.injEq]
          omega
        · by_cases hil : i < s.nodes.length
          · rw [List.getElem_append_left hil, hs.prev i hil]
            have c1 : i + 1 < s.nodes.length := by omega
            have c2 : i + 1 < s.nodes.length + 1 := by omega
            rw [if_pos c1, if_pos c2]
          · have hi2 : i = s.nodes.length := by omega
            subst hi2
            rw [List.getElem_append_right (by omega)]
            simp
    · simp only [VarStore.pairs, List.map_set, List.map_append, List.map_cons, List.map_nil]
      apply set_same
      rw [List.getElem?_append_left (by simpa using hq), List.getElem?_map,
        List.getElem?_eq_getElem hq]
      rfl

theorem set_shell_var_pairs (s : VarStore) (hs : StoreInv s) (name value : String) :
    ∃ s1, set_shell_var s name value = some s1 ∧ StoreInv s1 ∧
      s1.pairs = specSet s.pairs name value := by
  unfold specSet
  rw [← names_eq_pairs, pairs_length]
  cases hf : findDown s.names name s.nodes.length with
  | none => exact set_shell_var_new s hs name value hf
  | some p => exact set_shell_var_found s hs name value p hf

theorem findDown_congr (n1 n2 : List String) (name : String) : ∀ (k : Nat),
    (∀ i, i < k → n1[i]? = n2[i]?) → findDown n1 name k = findDown n2 name k := by
  intro k
  induction k with
  | zero => intro _; rfl
  | succ k ih =>
    intro h
    simp only [findDown, h k (by omega), ih (fun i hi => h i (by omega))]

theorem findDown_append (names : List String) (a name : String) :
    findDown (names ++ [a]) name (names.length + 1) =
      if a = name then some names.length else findDown names name names.length := by
  simp only [findDown, List.getElem?_append_right (le_refl _), Nat.sub_self,
    List.getElem?_cons_zero, Option.some.injEq]
  split
  · rfl
  · apply findDown_congr
    intro i hi
    exact List.getElem?_append_left hi

theorem specSet_names (l : List (String × String)) (name value : String) :
    (specSet l name value).map Prod.fst =
      if name ∈ l.map Prod.fst then l.map Prod.fst else l.map Prod.fst ++ [name] := by
  unfold specSet
  cases hf : findDown (l.map Prod.fst) name l.length with
  | none =>
    have hl : l.length = (l.map Prod.fst).length := by simp
    rw [hl, findDown_none_mem] at hf
    simp [hf]
  | some p =>
    obtain ⟨_, hp⟩ := findDown_lt _ _ _ _ hf
    have hm : name ∈ l.map Prod.fst := List.getElem?_mem hp
    simp only [hm, if_true, List.map_set]
    exact set_same _ _ _ hp

theorem specSet_length (l : List (String × String)) (name value : String) :
    (specSet l name value).length = ((specSet l name value).map Prod.fst).length := by
  simp

theorem specSet_find_self (l : List (String × String)) (a v : String) :
    ∃ p, findDown ((specSet l a v).map Prod.fst) a (specSet l a v).length = some p ∧
      (specSet l a v)[p]? = some (a, trim_newline v) := by
  have hl : l.length = (l.map Prod.fst).length := by simp
  cases hf : findDown (l.map Prod.fst) a l.length with
  | none =>
    refine ⟨l.length, ?_, ?_⟩
    · have e : specSet l a v = l ++ [(a, trim_newline v)] := by simp [specSet, hf]
      rw [e]
      simp only [List.map_append, List.map_cons, List.map_nil, List.length_append,
        List.length_singleton]
      rw [hl, findDown_append]
      simp
    · simp [specSet, hf]
  | some p =>
    obtain ⟨hp, hn⟩ := findDown_lt _ _ _ _ hf
    refine ⟨p, ?_, ?_⟩
    · have hm : a ∈ l.map Prod.fst := List.getElem?_mem hn
      rw [specSet_names, if_pos hm]
      simp only [specSet, hf, List.length_set]
    · simp only [specSet, hf]
      rw [List.getElem?_set_self hp]

theorem specSet_find_other (l : List (String × String)) (a b v : String) (hab : a ≠ b) :
    findDown ((specSet l a v).map Prod.fst) b (specSet l a v).length =
        findDown (l.map Prod.fst) b l.length ∧
      ∀ q, findDown (l.map Prod.fst) b l.length = some q → (specSet l a v)[q]? = l[q]? := by
  have hl : l.length = (l.map Prod.fst).length := by simp
  cases hf : findDown (l.map Prod.fst) a l.length with
  | none =>
    have e : specSet l a v = l ++ [(a, trim_newline v)] := by simp [specSet, hf]
    rw [e]
    constructor
    · simp only [List.map_append, List.map_cons, List.map_nil, List.length_append,
        List.length_singleton]
      rw [hl, findDown_append, if_neg hab]
    · intro q hq
      obtain ⟨hq1, _⟩ := findDown_lt _ _ _ _ hq
      exact List.getElem?_append_left hq1
  | some p =>
    obtain ⟨hp, hn⟩ := findDown_lt _ _ _ _ hf
    have hm : a ∈ l.map Prod.fst := List.getElem?_mem hn
    constructor
    · rw [specSet_names, if_pos hm]
      simp only [specSet, hf, List.length_set]
    · intro q hq
      obtain ⟨_, hq2⟩ := findDown_lt _ _ _ _ hq
      simp only [specSet, hf]
      apply List.getElem?_set_ne
      intro hpq
      subst hpq
      rw [hn] at hq2
      exact hab (Option.some.inj hq2)

theorem set_all_pairs : ∀ (ops : List (String × String)) (s : VarStore), StoreInv s →
    ∃ s1, set_all s ops = some s1 ∧ StoreInv s1 ∧ s1.pairs = specAll s.pairs ops := by
  intro ops
  induction ops with
  | nil => intro s hs; exact ⟨s, rfl, hs, rfl⟩
  | cons op rest ih =>
    intro s hs
    obtain ⟨s1, h1, hs1, hp1⟩ := set_shell_var_pairs s hs op.1 op.2
    obtain ⟨s2, h2, hs2, hp2⟩ := ih s1 hs1
    refine ⟨s2, ?_, hs2, ?_⟩
    · simp only [set_all, h1, Option.some_bind, h2]
    · rw [hp2, hp1]
      rfl

theorem empty_inv : StoreInv VarStore.empty := by
  constructor
  · rfl
  · intro i hi
    simp [VarStore.empty] at hi
  · intro i hi
    simp [VarStore.empty] at hi

theorem specAll_names_subset : ∀ (ops : List (String × String)) (l : List (String × String))
    (b : String), b ∈ (specAll l ops).map Prod.fst →
      b ∈ l.map Prod.fst ∨ b ∈ ops.map Prod.fst := by
  intro ops
  induction ops with
  | nil => intro l b h; exact Or.inl h
  | cons op rest ih =>
    intro l b h
    rcases ih (specSet l op.1 op.2) b h with h1 | h1
    · rw [specSet_names] at h1
      split at h1
      · exact Or.inl h1
      · rcases List.mem_append.mp h1 with h2 | h2
        · exact Or.inl h2
        · simp only [List.mem_singleton] at h2
          exact Or.inr (by simp [h2])
    · exact Or.inr (by simp only [List.map_cons, List.mem_cons]; exact Or.inr h1)

theorem trim_newline_id (v : String) (h : '\n' ∉ v.data) : trim_newline v = v := by
  unfold trim_newline
  have : v.data.takeWhile (fun c => decide (c ≠ '\n')) = v.data := by
    rw [List.takeWhile_eq_self_iff]
    intro c hc
    simp only [ne_eq, decide_not, Bool.not_eq_true', decide_eq_false_iff_not]
    intro he
    exact h (he ▸ hc)
  rw [this]

theorem find_shell_var_pairs (s : VarStore) (hs : StoreInv s) (name : String) :
    find_shell_var s s.shellVars name =
      some (findDown (s.pairs.map Prod.fst) name s.pairs.length) := by
  rw [find_shell_var_eq s hs, names_eq_pairs, pairs_length]

theorem pairs_node (s : VarStore) (p : Nat) (a v : String) (h : s.pairs[p]? = some (a, v)) :
    ∃ node, s.nodes[p]? = some node ∧ node.name = a ∧ node.value = v := by
  simp only [VarStore.pairs, List.getElem?_map] at h
  cases hn : s.nodes[p]? with
  | none => simp [hn] at h
  | some node =>
    simp only [hn, Option.map_some', Option.some.injEq, Prod.mk.injEq] at h
    exact ⟨node, rfl, h.1, h.2⟩

theorem set_then_find (s : VarStore) (hs : StoreInv s) (a v : String) :
    ∃ s1 p node, set_shell_var s a v = some s1 ∧ StoreInv s1 ∧
      find_shell_var s1 s1.shellVars a = some (some p) ∧
      s1.nodes[p]? = some node ∧ node.value = trim_newline v := by
  obtain ⟨s1, h1, hs1, hp1⟩ := set_shell_var_pairs s hs a v
  obtain ⟨p, hf, hv⟩ := specSet_find_self s.pairs a v
  rw [← hp1] at hf hv
  obtain ⟨node, hn, _, hval⟩ := pairs_node s1 p _ _ hv
  exact ⟨s1, p, node, h1, hs1, by rw [find_shell_var_pairs s1 hs1, hf], hn, hval⟩

/-- C6. For every store of the shape set_shell_var builds, names `a ≠ b` and a value `v2`
without a newline: after set_shell_var(a, v1) and set_shell_var(a, v2), find_shell_var(a)
returns a node whose value is `v2`; set_shell_var(a, v) leaves the result of
find_shell_var(b) as it was, the same node with the same name and value; find_shell_var
of a name that no call from the empty store has set returns NULL, while a name set to the
empty string is found, with the empty value. -/
theorem find_shell_var_after_set (s : VarStore) (hs : StoreInv s) (a b v1 v2 v : String)
    (hab : a ≠ b) (h2 : '\n' ∉ v2.data) :
    (∃ s1 s2 p node, set_shell_var s a v1 = some s1 ∧ set_shell_var s1 a v2 = some s2 ∧
      find_shell_var s2 s2.shellVars a = some (some p) ∧ s2.nodes[p]? = some node ∧
      node.value = v2) ∧
    (∃ s1 r, set_shell_var s a v = some s1 ∧ find_shell_var s s.shellVars b = some r ∧
      find_shell_var s1 s1.shellVars b = some r ∧
      ∀ p, r = some p → s1.pairs[p]? = s.pairs[p]?) ∧
    (∀ ops, b ∉ ops.map Prod.fst →
      ∃ s0, set_all VarStore.empty ops = some s0 ∧
        find_shell_var s0 s0.shellVars b = some none) ∧
    (∃ s1 p node, set_shell_var s a "" = some s1 ∧
      find_shell_var s1 s1.shellVars a = some (some p) ∧ s1.nodes[p]? = some node ∧
      node.value = "") := by
  refine ⟨?_, ?_, ?_, ?_⟩
  · obtain ⟨s1, _, _, h1, hs1, _⟩ := set_then_find s hs a v1
    obtain ⟨s2, p, node, h2', _, hf, hn, hv⟩ := set_then_find s1 hs1 a v2
    rw [trim_newline_id v2 h2] at hv
    exact ⟨s1, s2, p, node, h1, h2', hf, hn, hv⟩
  · obtain ⟨s1, h1, hs1, hp1⟩ := set_shell_var_pairs s hs a v
    obtain ⟨hfo, hq⟩ := specSet_find_other s.pairs a b v hab
    rw [← hp1] at hfo hq
    refine ⟨s1, _, h1, find_shell_var_pairs s hs b, ?_, ?_⟩
    · rw [find_shell_var_pairs s1 hs1, hfo]
    · intro p hp
      exact hq p hp
  · intro ops hb
    obtain ⟨s0, h0, hs0, hp0⟩ := set_all_pairs ops VarStore.empty empty_inv
    refine ⟨s0, h0, ?_⟩
    rw [find_shell_var_eq s0 hs0]
    congr 1
    have hl : s0.nodes.length = s0.names.length := by simp [VarStore.names]
    rw [hl, findDown_none_mem, names_eq_pairs, hp0]
    intro hm
    rcases specAll_names_subset ops _ b hm with h | h
    · simp [VarStore.pairs, VarStore.empty] at h
    · exact hb h
  · obtain ⟨s1, p, node, h1, _, hf, hn, hv⟩ := set_then_find s hs a ""
    exact ⟨s1, p, node, h1, hf, hn, by rw [hv]; rfl⟩

theorem sampleStore_inv : StoreInv sampleStore :=
  ⟨by decide, by decide, by decide⟩

/-- Witness of C6 on the store holding `Y=7` and `X=1`, with `a = X` and `b = Y`. -/
theorem find_shell_var_after_set_witness :
    (∃ s1 s2 p node, set_shell_var sampleStore "X" "1" = some s1 ∧
      set_shell_var s1 "X" "2" = some s2 ∧
      find_shell_var s2 s2.shellVars "X" = some (some p) ∧ s2.nodes[p]? = some node ∧
      node.value = "2") ∧
    (∃ s1 r, set_shell_var sampleStore "X" "3" = some s1 ∧
      find_shell_var sampleStore sampleStore.shellVars "Y" = some r ∧
      find_shell_var s1 s1.shellVars "Y" = some r ∧
      ∀ p, r = some p → s1.pairs[p]? = sampleStore.pairs[p]?) ∧
    (∀ ops, "Y" ∉ ops.map Prod.fst →
      ∃ s0, set_all VarStore.empty ops = some s0 ∧
        find_shell_var s0 s0.shellVars "Y" = some none) ∧
    (∃ s1 p node, set_shell_var sampleStore "X" "" = some s1 ∧
      find_shell_var s1 s1.shellVars "X" = some (some p) ∧ s1.nodes[p]? = some node ∧
      node.value = "") :=
  find_shell_var_after_set sampleStore sampleStore_inv "X" "Y" "1" "2" "3" (by decide)
    (by decide)

/-! ## Uniqueness of names -/

theorem list_from_down (nodes : List ShellVar)
    (hnext : ∀ i (hi : i < nodes.length), nodes[i].next = if i = 0 then none else some (i - 1)) :
    ∀ (p fuel : Nat), p < fuel → p < nodes.length →
      list_from nodes fuel (some p) = some (nodes.take (p + 1)).reverse := by
  intro p
  induction p with
  | zero =>
    intro fuel hf hp
    obtain ⟨f, rfl⟩ : ∃ f, fuel = f + 1 := ⟨fuel - 1, by omega⟩
    have hn := hnext 0 hp
    simp only [if_true] at hn
    rw [list_from]
    simp only [List.getElem?_eq_getElem hp, hn]
    rw [List.take_succ]
    simp [list_from, List.getElem?_eq_getElem hp]
  | succ p ih =>
    intro fuel hf hp
    obtain ⟨f, rfl⟩ : ∃ f, fuel = f + 1 := ⟨fuel - 1, by omega⟩
    have hn := hnext (p + 1) hp
    simp only [Nat.add_one_ne_zero, if_false, Nat.add_sub_cancel] at hn
    rw [list_from]
    simp only [List.getElem?_eq_getElem hp, hn]
    have e : (nodes.take (p + 1 + 1)).reverse = nodes[p + 1] :: (nodes.take (p + 1)).reverse := by
      rw [List.take_succ, List.getElem?_eq_getElem hp]
      simp
    rw [ih f (by omega) (by omega), e]
    rfl

theorem list_from_eq (s : VarStore) (hs : StoreInv s) :
    list_from s.nodes s.nodes.length s.shellVars = some s.nodes.reverse := by
  rw [hs.head]
  split
  · rename_i h0
    have hnil : s.nodes = [] := List.length_eq_zero.mp h0
    simp [hnil, list_from]
  · rename_i h0
    rw [list_from_down s.nodes hs.next _ _ (by omega) (by omega)]
    have : s.nodes.length - 1 + 1 = s.nodes.length := by omega
    rw [this, List.take_length]

theorem specSet_nodup (l : List (String × String)) (name value : String)
    (h : (l.map Prod.fst).Nodup) : ((specSet l name value).map Prod.fst).Nodup := by
  rw [specSet_names]
  split
  · exact h
  · rename_i hn
    rw [List.nodup_append]
    refine ⟨h, List.nodup_singleton _, ?_⟩
    intro x hx hx2
    simp only [List.mem_singleton] at hx2
    exact hn (hx2 ▸ hx)

theorem specAll_nodup : ∀ (ops : List (String × String)) (l : List (String × String)),
    (l.map Prod.fst).Nodup → ((specAll l ops).map Prod.fst).Nodup := by
  intro ops
  induction ops with
  | nil => intro l h; exact h
  | cons op rest ih =>
    intro l h
    exact ih _ (specSet_nodup l op.1 op.2 h)

/-- C7. After every finite sequence of set_shell_var calls from the empty store, the nodes
of the list, followed from the head along `next`, carry pairwise distinct names; and a
further set_shell_var on a name the list holds returns a list of the same names in the
same order: it updates the entry in place and adds none. -/
theorem set_shell_var_unique (ops : List (String × String)) :
    ∃ s l, set_all VarStore.empty ops = some s ∧
      list_from s.nodes s.nodes.length s.shellVars = some l ∧
      (l.map (fun nd => nd.name)).Nodup ∧
      ∀ name value, name ∈ l.map (fun nd => nd.name) →
        ∃ s1 l1, set_shell_var s name value = some s1 ∧
          list_from s1.nodes s1.nodes.length s1.shellVars = some l1 ∧
          l1.map (fun nd => nd.name) = l.map (fun nd => nd.name) := by
  obtain ⟨s, h0, hs, hp⟩ := set_all_pairs ops VarStore.empty empty_inv
  have hnd : s.names.Nodup := by
    rw [names_eq_pairs, hp]
    exact specAll_nodup ops _ (by simp [VarStore.pairs, VarStore.empty])
  refine ⟨s, s.nodes.reverse, h0, list_from_eq s hs, ?_, ?_⟩
  · rw [List.map_reverse, List.nodup_reverse]
    exact hnd
  · intro name value hm
    obtain ⟨s1, h1, hs1, hp1⟩ := set_shell_var_pairs s hs name value
    refine ⟨s1, s1.nodes.reverse, h1, list_from_eq s1 hs1, ?_⟩
    have hn1 : s1.names = s.names := by
      rw [names_eq_pairs, hp1, specSet_names, ← names_eq_pairs, if_pos]
      rw [List.map_reverse, List.mem_reverse] at hm
      exact hm
    rw [List.map_reverse, List.map_reverse]
    exact congrArg List.reverse hn1

/-- Witness of C7: `X`, `Y` and `X` again. -/
theorem set_shell_var_unique_witness :
    ∃ s l, set_all VarStore.empty [("X", "1"), ("Y", "2"), ("X", "3")] = some s ∧
      list_from s.nodes s.nodes.length s.shellVars = some l ∧
      (l.map (fun nd => nd.name)).Nodup ∧
      ∀ name value, name ∈ l.map (fun nd => nd.name) →
        ∃ s1 l1, set_shell_var s name value = some s1 ∧
          list_from s1.nodes s1.nodes.length s1.shellVars = some l1 ∧
          l1.map (fun nd => nd.name) = l.map (fun nd => nd.name) :=
  set_shell_var_unique [("X", "1"), ("Y", "2"), ("X", "3")]

/-! ## Listing the variables -/

theorem last_loop_zero (nodes : List ShellVar)
    (hnext : ∀ i (hi : i < nodes.length), nodes[i].next = if i = 0 then none else some (i - 1)) :
    ∀ (p fuel : Nat), p < fuel → p < nodes.length → last_loop nodes fuel p = some 0 := by
  intro p
  induction p with
  | zero =>
    intro fuel hf hp
    obtain ⟨f, rfl⟩ : ∃ f, fuel = f + 1 := ⟨fuel - 1, by omega⟩
    have hn := hnext 0 hp
    simp only [if_true] at hn
    simp only [last_loop, List.getElem?_eq_getElem hp, hn]
  | succ p ih =>
    intro fuel hf hp
    obtain ⟨f, rfl⟩ : ∃ f, fuel = f + 1 := ⟨fuel - 1, by omega⟩
    have hn := hnext (p + 1) hp
    simp only [Nat.add_one_ne_zero, if_false, Nat.add_sub_cancel] at hn
    simp only [last_loop, List.getElem?_eq_getElem hp, hn]
    exact ih f (by omega) (by omega)

theorem back_loop_up (nodes : List ShellVar)
    (hprev : ∀ i (hi : i < nodes.length),
      nodes[i].prev = if i + 1 < nodes.length then some (i + 1) else none) :
    ∀ (k p fuel : Nat), p + k = nodes.length → 0 < k → k ≤ fuel →
      back_loop nodes fuel (some p) =
        some (varLines ((nodes.drop p).map (fun nd => (nd.name, nd.value)))) := by
  intro k
  induction k with
  | zero => intro p fuel _ h; omega
  | succ k ih =>
    intro p fuel hpk _ hf
    obtain ⟨f, rfl⟩ : ∃ f, fuel = f + 1 := ⟨fuel - 1, by omega⟩
    have hp : p < nodes.length := by omega
    have hn := hprev p hp
    rw [back_loop]
    simp only [List.getElem?_eq_getElem hp]
    rw [List.drop_eq_getElem_cons hp]
    by_cases hk : k = 0
    · subst hk
      have c : ¬ (p + 1 < nodes.length) := by omega
      rw [if_neg c] at hn
      have hd : nodes.drop (p + 1) = [] := List.drop_of_length_le (by omega)
      rw [hn, hd]
      simp only [back_loop, Option.map_some', List.map_cons, List.map_nil, varLines]
      by_cases hv : nodes[p].value = "" <;> simp [hv]
    · have c : p + 1 < nodes.length := by omega
      rw [if_pos c] at hn
      rw [hn, ih (p + 1) f (by omega) (by omega) (by omega)]
      simp only [Option.map_some', List.map_cons, varLines]
      by_cases hv : nodes[p].value = "" <;> simp [hv]

theorem list_shell_vars_eq (s : VarStore) (hs : StoreInv s) :
    list_shell_vars s = some (varLines s.pairs) := by
  unfold list_shell_vars
  have hh := hs.head
  by_cases h0 : s.nodes.length = 0
  · rw [if_pos h0] at hh
    have hnil : s.nodes = [] := List.length_eq_zero.mp h0
    simp [hh, VarStore.pairs, hnil, varLines]
  · rw [if_neg h0] at hh
    simp only [hh]
    rw [last_loop_zero s.nodes hs.next _ _ (by omega) (by omega)]
    simp only [Option.some_bind]
    rw [back_loop_up s.nodes hs.prev s.nodes.length 0 _ (by omega) (by omega) (le_refl _)]
    rfl

theorem firstInserted_mem (m : String) : ∀ (l : List String),
    m ∈ firstInserted l ↔ m ∈ l := by
  intro l
  induction l with
  | nil => simp [firstInserted]
  | cons n rest ih =>
    simp only [firstInserted, List.mem_cons, List.mem_filter, ih, ne_eq, decide_not,
      Bool.not_eq_true', decide_eq_false_iff_not]
    constructor
    · rintro (h | ⟨h, _⟩)
      · exact Or.inl h
      · exact Or.inr h
    · rintro (h | h)
      · exact Or.inl h
      · by_cases hmn : m = n
        · exact Or.inl hmn
        · exact Or.inr ⟨h, hmn⟩

theorem firstInserted_nodup : ∀ (l : List String), (firstInserted l).Nodup := by
  intro l
  induction l with
  | nil => simp [firstInserted]
  | cons n rest ih =>
    simp only [firstInserted, List.nodup_cons, List.mem_filter, ne_eq, decide_not,
      Bool.not_eq_true', decide_eq_false_iff_not, not_true_eq_false, and_false,
      not_false_eq_true, true_and]
    exact ih.filter _

theorem firstInserted_append (n : String) : ∀ (l : List String),
    firstInserted (l ++ [n]) = if n ∈ l then firstInserted l else firstInserted l ++ [n] := by
  intro l
  induction l with
  | nil => simp [firstInserted]
  | cons a rest ih =>
    have e1 : firstInserted (a :: (rest ++ [n])) =
        a :: (firstInserted (rest ++ [n])).filter (fun m => m ≠ a) := rfl
    have e2 : firstInserted (a :: rest) =
        a :: (firstInserted rest).filter (fun m => m ≠ a) := rfl
    rw [List.cons_append, e1, e2, ih]
    simp only [List.mem_cons]
    by_cases hna : n = a
    · subst hna
      by_cases hr : n ∈ rest
      · simp [hr]
      · simp [hr]
    · by_cases hr : n ∈ rest
      · simp [hr, hna]
      · simp [hr, hna]

theorem currentValue_append (l : List (String × String)) (n v m : String) :
    currentValue (l ++ [(n, v)]) m = if n = m then trim_newline v else currentValue l m := by
  unfold currentValue
  simp only [List.reverse_append, List.reverse_cons, List.reverse_nil, List.nil_append,
    List.singleton_append, List.find?_cons]
  by_cases h : n = m <;> simp [h]

theorem specSet_of_mem (l : List (String × String)) (name value : String)
    (h : name ∈ l.map Prod.fst) :
    ∃ p, (l.map Prod.fst)[p]? = some name ∧
      specSet l name value = l.set p (name, trim_newline value) := by
  cases hf : findDown (l.map Prod.fst) name l.length with
  | none =>
    have hl : l.length = (l.map Prod.fst).length := by simp
    rw [hl, findDown_none_mem] at hf
    exact absurd h hf
  | some p =>
    obtain ⟨_, hp⟩ := findDown_lt _ _ _ _ hf
    exact ⟨p, hp, by simp [specSet, hf]⟩

theorem specSet_of_not_mem (l : List (String × String)) (name value : String)
    (h : name ∉ l.map Prod.fst) :
    specSet l name value = l ++ [(name, trim_newline value)] := by
  have hl : l.length = (l.map Prod.fst).length := by simp
  have hf := (findDown_none_mem (l.map Prod.fst) name).mpr h
  rw [← hl] at hf
  simp [specSet, hf]

theorem specAll_eq : ∀ (ops : List (String × String)),
    specAll [] ops =
      (firstInserted (ops.map Prod.fst)).map (fun n => (n, currentValue ops n)) := by
  intro ops
  induction ops using List.reverseRecOn with
  | nil => rfl
  | append_singleton l op ih =>
    obtain ⟨n, v⟩ := op
    have hstep : specAll [] (l ++ [(n, v)]) = specSet (specAll [] l) n v := by
      simp [specAll, List.foldl_append]
    have hnames : (specAll [] l).map Prod.fst = firstInserted (l.map Prod.fst) := by
      rw [ih, List.map_map]
      exact List.map_id _
    rw [hstep, List.map_append, List.map_cons, List.map_nil, firstInserted_append]
    by_cases hm : n ∈ l.map Prod.fst
    · rw [if_pos hm]
      obtain ⟨p, hp, he⟩ := specSet_of_mem (specAll [] l) n v
        (by rw [hnames, firstInserted_mem]; exact hm)
      rw [he, ih]
      rw [hnames] at hp
      apply List.ext_getElem?
      intro i
      have hplt : p < (firstInserted (l.map Prod.fst)).length := by
        by_contra hc
        rw [List.getElem?_eq_none (by omega)] at hp
        cases hp
      rw [List.getElem?_eq_getElem hplt] at hp
      have hpn : (firstInserted (l.map Prod.fst))[p] = n := Option.some.inj hp
      by_cases hip : p = i
      · subst hip
        rw [List.getElem?_set_self (by simpa using hplt), List.getElem?_map,
          List.getElem?_eq_getElem hplt, hpn]
        simp [currentValue_append]
      · rw [List.getElem?_set_ne hip, List.getElem?_map, List.getElem?_map]
        by_cases hil : i < (firstInserted (l.map Prod.fst)).length
        · rw [List.getElem?_eq_getElem hil]
          simp only [Option.map_some', Option.some.injEq, Prod.mk.injEq, true_and]
          rw [currentValue_append, if_neg]
          intro hni
          have hsame : (firstInserted (l.map Prod.fst))[p] =
              (firstInserted (l.map Prod.fst))[i] := by rw [hpn, hni]
          exact hip ((firstInserted_nodup (l.map Prod.fst)).getElem_inj_iff.mp hsame)
        · rw [List.getElem?_eq_none (by omega)]
          rfl
    · rw [if_neg hm]
      rw [specSet_of_not_mem _ _ _ (by rw [hnames, firstInserted_mem]; exact hm), ih]
      simp only [List.map_append, List.map_cons, List.map_nil, currentValue_append, if_true]
      congr 1
      apply List.map_congr_left
      intro m hmem
      have hne : n ≠ m := by
        intro he
        subst he
        exact hm ((firstInserted_mem _ _).mp hmem)
      simp [hne]

/-- C8. For every store reached from the empty store by set_shell_var calls `ops`,
list_shell_vars emits exactly one line for each name whose current value is not empty, the
text of the line being the name, the character `=`, the current value and a newline, in the
order in which the names were first inserted (a later call on a name does not move it), and
no line for a name whose current value is empty. -/
theorem list_shell_vars_order (ops : List (String × String)) :
    ∃ s, set_all VarStore.empty ops = some s ∧
      list_shell_vars s = some
        (((firstInserted (ops.map Prod.fst)).filter (fun n => currentValue ops n ≠ "")).map
          (fun n => n ++ "=" ++ currentValue ops n ++ "\n")) ∧
      (firstInserted (ops.map Prod.fst)).Nodup := by
  obtain ⟨s, h0, hs, hp⟩ := set_all_pairs ops VarStore.empty empty_inv
  refine ⟨s, h0, ?_, firstInserted_nodup _⟩
  have hp2 : s.pairs = specAll [] ops := hp
  rw [list_shell_vars_eq s hs, hp2, specAll_eq]
  simp only [varLines, List.filter_map, List.map_map]
  rfl

/-- Witness of C8: `A` is set, then `B` to the empty string, then `C`, then `A` again: the
lines are `A=2` and `C=x`, in this order. -/
theorem list_shell_vars_order_witness :
    ∃ s, set_all VarStore.empty [("A", "1\n"), ("B", ""), ("C", "x"), ("A", "2")] = some s ∧
      list_shell_vars s = some ["A=2\n", "C=x\n"] := by
  obtain ⟨s, h1, h2, _⟩ :=
    list_shell_vars_order [("A", "1\n"), ("B", ""), ("C", "x"), ("A", "2")]
  refine ⟨s, h1, ?_⟩
  rw [h2]
  decide

/-- A run of the code on the same calls. -/
theorem list_shell_vars_order_example :
    ((set_all VarStore.empty [("A", "1\n"), ("B", ""), ("C", "x"), ("A", "2")]).bind
      list_shell_vars) = some ["A=2\n", "C=x\n"] := by
  decide

/-! ## Variable expansion -/

theorem findDown_find (name : String) : ∀ (l : List (String × String)),
    (findDown (l.map Prod.fst) name l.length).bind (fun p => l[p]?) =
      l.reverse.find? (fun e => e.1 = name) := by
  intro l
  induction l using List.reverseRecOn with
  | nil => rfl
  | append_singleton l e ih =>
    have hl : l.length = (l.map Prod.fst).length := by simp
    simp only [List.map_append, List.map_cons, List.map_nil, List.length_append,
      List.length_singleton, List.reverse_append, List.reverse_cons, List.reverse_nil,
      List.nil_append, List.singleton_append, List.find?_cons]
    rw [hl, findDown_append, ← hl]
    by_cases he : e.1 = name
    · simp [he]
    · simp only [he, if_false, decide_False]
      rw [← ih]
      cases hf : findDown (l.map Prod.fst) name l.length with
      | none => rfl
      | some p =>
        obtain ⟨hp, _⟩ := findDown_lt _ _ _ _ hf
        simp only [Option.some_bind]
        exact List.getElem?_append_left hp

theorem lookup_var_eq (sh : ShellState) (hs : StoreInv sh.vars) (name : String) :
    lookup_var sh name = some (substValue sh name) := by
  unfold lookup_var substValue
  cases getenv sh.env name with
  | some v => rfl
  | none =>
    simp only
    rw [find_shell_var_pairs sh.vars hs]
    have hfind := findDown_find name sh.vars.pairs
    unfold storeValue
    rw [← hfind]
    cases hf : findDown (sh.vars.pairs.map Prod.fst) name sh.vars.pairs.length with
    | none => rfl
    | some p =>
      obtain ⟨hp, _⟩ := findDown_lt _ _ _ _ hf
      simp only [List.length_map, pairs_length] at hp
      simp [VarStore.pairs, List.getElem?_eq_getElem hp]

theorem subst_loop_eq (sh : ShellState) (hs : StoreInv sh.vars) :
    ∀ (post pre : List String) (fuel : Nat), post.length < fuel →
      subst_loop sh fuel pre.length (pre ++ post) = some (pre ++ post.map (expandSpec sh)) := by
  intro post
  induction post with
  | nil =>
    intro pre fuel hf
    obtain ⟨f, rfl⟩ : ∃ f, fuel = f + 1 := ⟨fuel - 1, by omega⟩
    simp [subst_loop]
  | cons a rest ih =>
    intro pre fuel hf
    obtain ⟨f, rfl⟩ : ∃ f, fuel = f + 1 := ⟨fuel - 1, by omega⟩
    simp only [List.length_cons] at hf
    have hget : (pre ++ a :: rest)[pre.length]? = some a := by
      rw [List.getElem?_append_right (le_refl _)]
      simp
    have hstep : ∀ v : String, subst_loop sh f (pre.length + 1) (pre ++ v :: rest) =
        some (pre ++ v :: rest.map (expandSpec sh)) := by
      intro v
      have := ih (pre ++ [v]) f (by omega)
      simpa using this
    rw [subst_loop]
    simp only [hget, List.map_cons]
    unfold expandSpec
    cases hv : var_name a with
    | none => exact hstep a
    | some nm =>
      simp only
      rw [lookup_var_eq sh hs]
      simp only [Option.some_bind]
      have hset : (pre ++ a :: rest).set pre.length (substValue sh nm) =
          pre ++ substValue sh nm :: rest := by simp
      rw [hset]
      exact hstep _

theorem substitute_pass_eq (sh : ShellState) (hs : StoreInv sh.vars) (args : List String) :
    substitute_pass sh args = some (sh, args.map (expandSpec sh)) := by
  unfold substitute_pass
  have := subst_loop_eq sh hs args [] (args.length + 1) (by omega)
  simp only [List.length_nil, List.nil_append] at this
  rw [this]
  rfl

theorem split_at_eq : ∀ (l : List Char), '=' ∈ l →
    l = l.takeWhile (fun c => c ≠ '=') ++ '=' :: (l.dropWhile (fun c => c ≠ '=')).drop 1 := by
  intro l
  induction l with
  | nil => intro h; simp at h
  | cons a r ih =>
    intro h
    by_cases ha : a = '='
    · subst ha
      simp [List.takeWhile_cons, List.dropWhile_cons]
    · have hr : '=' ∈ r := by
        rcases List.mem_cons.mp h with h1 | h1
        · exact absurd h1.symm ha
        · exact h1
      have e := ih hr
      simp only [List.takeWhile_cons, List.dropWhile_cons, ne_eq, ha, not_false_eq_true,
        decide_True, if_true, List.cons_append]
      exact congrArg (List.cons a) e

theorem takeWhile_name (n rest : List Char) (hn : '=' ∉ n) :
    (n ++ '=' :: rest).takeWhile (fun c => c ≠ '=') = n ∧
      ((n ++ '=' :: rest).dropWhile (fun c => c ≠ '=')).drop 1 = rest := by
  induction n with
  | nil => simp [List.takeWhile_cons, List.dropWhile_cons]
  | cons a r ih =>
    have ha : a ≠ '=' := fun h => hn (by simp [h])
    have hr : '=' ∉ r := fun h => hn (List.mem_cons_of_mem _ h)
    obtain ⟨h1, h2⟩ := ih hr
    simp only [List.cons_append, List.takeWhile_cons, List.dropWhile_cons, ne_eq, ha,
      not_false_eq_true, decide_True, if_true]
    exact ⟨congrArg (List.cons a) h1, h2⟩

theorem env_match_iff (name e : String) (hne : '=' ∉ name.data) :
    env_match name e = true ↔
      ('=' ∈ e.data ∧ String.mk (e.data.takeWhile (fun c => c ≠ '=')) = name) := by
  unfold env_match
  rw [List.isPrefixOf_iff_prefix]
  constructor
  · rintro ⟨rest, hr⟩
    have he : e.data = name.data ++ '=' :: rest := by
      rw [← hr]
      simp
    refine ⟨by rw [he]; simp, ?_⟩
    rw [he, (takeWhile_name name.data rest hne).1]
  · rintro ⟨hm, ht⟩
    have hs := split_at_eq e.data hm
    have ht2 : e.data.takeWhile (fun c => c ≠ '=') = name.data := by
      rw [← ht]
    rw [ht2] at hs
    have h2 : name.data ++ ['='] ++ (e.data.dropWhile (fun c => c ≠ '=')).drop 1 =
        name.data ++ '=' :: (e.data.dropWhile (fun c => c ≠ '=')).drop 1 := by simp
    exact ⟨(e.data.dropWhile (fun c => c ≠ '=')).drop 1, h2.trans hs.symm⟩

theorem env_match_value (name e : String) (hne : '=' ∉ name.data)
    (hm : env_match name e = true) :
    String.mk (e.data.drop (name.data.length + 1)) =
      String.mk ((e.data.dropWhile (fun c => c ≠ '=')).drop 1) := by
  unfold env_match at hm
  rw [List.isPrefixOf_iff_prefix] at hm
  obtain ⟨rest, hr⟩ := hm
  have he : e.data = name.data ++ '=' :: rest := by
    rw [← hr]
    simp
  rw [he, (takeWhile_name name.data rest hne).2]
  have e2 : name.data ++ '=' :: rest = (name.data ++ ['=']) ++ rest := by simp
  rw [e2, List.drop_left' (by simp)]

theorem getenv_eq_envValue (env : Env) (name : String) (hn : name ≠ "")
    (hne : '=' ∉ name.data) : getenv env name = envValue env name := by
  unfold getenv envValue
  rw [if_neg hn]
  induction env with
  | nil => rfl
  | cons e rest ih =>
    by_cases hm : env_match name e = true
    · have hp := (env_match_iff name e hne).mp hm
      rw [List.find?_cons_of_pos _ hm, List.find?_cons_of_pos _ (by simpa using hp)]
      simp only [Option.map_some', Option.some.injEq]
      exact env_match_value name e hne hm
    · have hp : ¬ ('=' ∈ e.data ∧ String.mk (e.data.takeWhile (fun c => c ≠ '=')) = name) :=
        fun h => hm ((env_match_iff name e hne).mpr h)
      rw [List.find?_cons_of_neg _ hm, List.find?_cons_of_neg _ (by simpa using hp)]
      exact ih

/-- C9, amended. For every argument vector, environment and variable store (of the shape
set_shell_var builds), the substitution pass of handle_dollor_value returns the vector in
which each token `$NAME` with at least one character after the `$` is replaced by what
`getenv` returns for `NAME`, the text after `NAME=` in the first environment string that
begins with `NAME=`, if there is one, otherwise by the store's value if the store defines
`NAME`, otherwise by the empty string; for a `NAME` without `=` what `getenv` returns is the
environment's value of `NAME` if the environment defines `NAME`. Every other token, the lone
`$` included, is as it was; each position is rewritten once, so a substituted value is not
expanded again; the environment and the store come back as they were. -/
theorem substitute_pass_spec (sh : ShellState) (hs : StoreInv sh.vars) (args : List String) :
    substitute_pass sh args = some (sh, args.map (expandSpec sh)) ∧
    expandSpec sh "$" = "$" ∧
    (∀ token : String, token.data.head? ≠ some '$' → expandSpec sh token = token) ∧
    (∀ name : String, name ≠ "" → expandSpec sh ("$" ++ name) =
      match getenv sh.env name with
      | some v => v
      | none =>
        match storeValue sh.vars name with
        | some v => v
        | none => "") ∧
    (∀ name : String, name ≠ "" → getenv sh.env name =
      (sh.env.find? (fun e => (name.data ++ ['=']).isPrefixOf e.data)).map
        fun e => String.mk (e.data.drop (name.data.length + 1))) ∧
    ∀ name : String, name ≠ "" → '=' ∉ name.data →
      getenv sh.env name = envValue sh.env name := by
  refine ⟨substitute_pass_eq sh hs args, rfl, ?_, ?_, ?_, ?_⟩
  · intro token ht
    have hv : var_name token = none := by
      unfold var_name
      split
      · rename_i c r hd
        rw [hd] at ht
        exact absurd rfl ht
      · rfl
    simp only [expandSpec, hv]
  · intro name hname
    obtain ⟨cs⟩ := name
    cases cs with
    | nil => exact absurd rfl hname
    | cons c r => rfl
  · intro name hname
    unfold getenv
    rw [if_neg hname]
    rfl
  · intro name hname hne
    exact getenv_eq_envValue sh.env name hname hne

/-- Witness of C9 amended: the store `Y=7`, `X=1` and the environment `HOME=/root`, `Z=$Y`:
the value `$Y` of `Z` is not expanded again. -/
theorem substitute_pass_spec_witness :
    substitute_pass { env := ["HOME=/root", "Z=$Y"], vars := sampleStore }
        ["echo", "$HOME", "$Y", "$Z", "$", "$NONE"] =
      some ({ env := ["HOME=/root", "Z=$Y"], vars := sampleStore },
        ["echo", "/root", "7", "$Y", "$", ""]) :=
  (substitute_pass_spec { env := ["HOME=/root", "Z=$Y"], vars := sampleStore }
    sampleStore_inv ["echo", "$HOME", "$Y", "$Z", "$", "$NONE"]).1

/-- C9 as stated fails: after `export A=B=C` the environment holds the string `A=B=C`, which
defines `A`; it defines no name `A=B`, and neither does the store, so the claim asks for the
empty string in place of the token `$A=B`. The code hands `A=B` to `getenv`, which finds the
string beginning with `A=B=`, and substitutes `C`. -/
theorem substitute_pass_spec_counterexample :
    envValue ["A=B=C"] "A=B" = none ∧ storeValue VarStore.empty "A=B" = none ∧
      envValue ["A=B=C"] "A" = some "B=C" ∧
      substitute_pass { env := ["A=B=C"], vars := VarStore.empty } ["echo", "$A=B"] =
        some ({ env := ["A=B=C"], vars := VarStore.empty }, ["echo", "C"]) := by
  decide

/-! ## The removal pass -/

theorem shift_loop_eq : ∀ (post pre : List String) (a : String) (fuel : Nat),
    post.length + 1 < fuel →
      shift_loop fuel pre.length (pre ++ a :: post) = some (pre ++ post) := by
  intro post
  induction post with
  | nil =>
    intro pre a fuel hf
    obtain ⟨f, rfl⟩ : ∃ f, fuel = f + 1 := ⟨fuel - 1, by omega⟩
    obtain ⟨g, rfl⟩ : ∃ g, f = g + 1 := ⟨f - 1, by simp at hf; omega⟩
    have h1 : (pre ++ [a])[pre.length]? = some a := by
      rw [List.getElem?_append_right (le_refl _)]
      simp
    have h2 : (pre ++ [a])[pre.length + 1]? = none := by
      rw [List.getElem?_eq_none (by simp)]
    have h3 : pre[pre.length + 1]? = none := by
      rw [List.getElem?_eq_none (by omega)]
    rw [shift_loop]
    simp only [h1, h2, List.take_left', List.append_nil]
    rw [shift_loop]
    simp only [h3]
  | cons b rest ih =>
    intro pre a fuel hf
    obtain ⟨f, rfl⟩ : ∃ f, fuel = f + 1 := ⟨fuel - 1, by omega⟩
    simp only [List.length_cons] at hf
    have h1 : (pre ++ a :: b :: rest)[pre.length]? = some a := by
      rw [List.getElem?_append_right (le_refl _)]
      simp
    have h2 : (pre ++ a :: b :: rest)[pre.length + 1]? = some b := by
      rw [List.getElem?_append_right (by omega)]
      simp
    have hset : (pre ++ a :: b :: rest).set pre.length b = (pre ++ [b]) ++ b :: rest := by
      simp
    rw [shift_loop]
    simp only [h1, h2, hset]
    have := ih (pre ++ [b]) b f (by omega)
    simp only [List.length_append, List.length_singleton] at this
    rw [this]
    simp

theorem removalSpec_nil : removalSpec [] = [] := rfl

theorem removalSpec_single (a : String) : removalSpec [a] = [a] := rfl

theorem removalSpec_cons (a b : String) (rest : List String) :
    removalSpec (a :: b :: rest) =
      if a = "" then removalSpec (b :: rest) else a :: removalSpec (b :: rest) := by
  unfold removalSpec
  simp only [List.dropLast_cons₂, List.getLast?_cons_cons, List.filter_cons]
  by_cases ha : a = "" <;> simp [ha]

theorem removal_loop_eq : ∀ (n : Nat) (post pre : List String) (fuel : Nat),
    post.length = n → n < fuel →
      removal_loop fuel pre.length (pre ++ post) = some (pre ++ removalSpec post) := by
  intro n
  induction n with
  | zero =>
    intro post pre fuel hl hf
    have hnil : post = [] := List.length_eq_zero.mp hl
    subst hnil
    obtain ⟨f, rfl⟩ : ∃ f, fuel = f + 1 := ⟨fuel - 1, by omega⟩
    simp [removal_loop, removalSpec_nil]
  | succ n ih =>
    intro post pre fuel hl hf
    obtain ⟨f, rfl⟩ : ∃ f, fuel = f + 1 := ⟨fuel - 1, by omega⟩
    cases post with
    | nil => simp at hl
    | cons a rest =>
      simp only [List.length_cons, Nat.add_right_cancel_iff] at hl
      have h1 : (pre ++ a :: rest)[pre.length]? = some a := by
        rw [List.getElem?_append_right (le_refl _)]
        simp
      rw [removal_loop]
      simp only [h1]
      cases rest with
      | nil =>
        have h2 : (pre ++ [a])[pre.length + 1]? = none := by
          rw [List.getElem?_eq_none (by simp)]
        have hc : ¬ (a = "" ∧ (pre ++ [a])[pre.length + 1]? ≠ none) := by
          rw [h2]
          simp
        rw [if_neg hc]
        have := ih [] (pre ++ [a]) f (by simpa using hl) (by omega)
        simp only [List.length_append, List.length_singleton, List.append_nil,
          removalSpec_nil] at this
        rw [this, removalSpec_single]
      | cons b rest2 =>
        have h2 : (pre ++ a :: b :: rest2)[pre.length + 1]? = some b := by
          rw [List.getElem?_append_right (by omega)]
          simp
        rw [removalSpec_cons]
        by_cases ha : a = ""
        · have hc : a = "" ∧ (pre ++ a :: b :: rest2)[pre.length + 1]? ≠ none := by
            rw [h2]
            exact ⟨ha, by simp⟩
          rw [if_pos hc, if_pos ha]
          rw [shift_loop_eq (b :: rest2) pre a _ (by simp; omega)]
          simp only [Option.some_bind]
          exact ih (b :: rest2) pre f hl (by omega)
        · have hc : ¬ (a = "" ∧ (pre ++ a :: b :: rest2)[pre.length + 1]? ≠ none) := by
            intro h
            exact ha h.1
          rw [if_neg hc, if_neg ha]
          have := ih (b :: rest2) (pre ++ [a]) f hl (by omega)
          simp only [List.length_append, List.length_singleton, List.append_assoc,
            List.singleton_append] at this
          exact this

theorem removal_pass_eq (args : List String) : removal_pass args = some (removalSpec args) := by
  unfold removal_pass
  have := removal_loop_eq args.length args [] (2 * args.length + 1) rfl (by omega)
  simpa using this

theorem removalSpec_inner_nonempty : ∀ (args : List String) (i : Nat),
    i + 1 < (removalSpec args).length → (removalSpec args)[i]? ≠ some "" := by
  intro args i hi he
  unfold removalSpec at hi he
  have hlast : args.getLast?.toList.length ≤ 1 := by
    cases args.getLast? <;> simp
  simp only [List.length_append] at hi
  rw [List.getElem?_append_left (by omega)] at he
  have hm := List.getElem?_mem he
  simp at hm

theorem removalSpec_ne_nil (args : List String) (h : args ≠ []) : removalSpec args ≠ [] := by
  unfold removalSpec
  cases hl : args.getLast? with
  | none => exact absurd (List.getLast?_eq_none_iff.mp hl) h
  | some a => simp

/-- C10, amended. For every argument vector, handle_dollor_value returns the substituted
tokens with every empty one removed except the last token of the vector, which is kept
whatever it is: the result is the non-empty substituted tokens among all but the last,
followed by the last substituted token; so an empty string stands in the result only as its
last token, and a non-empty vector is never emptied. -/
theorem handle_dollor_value_removal (sh : ShellState) (hs : StoreInv sh.vars)
    (args : List String) :
    ∃ out, handle_dollor_value sh args = some (sh, out) ∧
      out = ((args.map (expandSpec sh)).dropLast.filter (fun t => t ≠ "")) ++
        (args.map (expandSpec sh)).getLast?.toList ∧
      (∀ i, i + 1 < out.length → out[i]? ≠ some "") ∧
      (args ≠ [] → out ≠ []) := by
  refine ⟨removalSpec (args.map (expandSpec sh)), ?_, rfl, ?_, ?_⟩
  · unfold handle_dollor_value
    rw [substitute_pass_eq sh hs args]
    simp only [Option.some_bind, removal_pass_eq, Option.map_some']
  · exact removalSpec_inner_nonempty _
  · intro h
    exact removalSpec_ne_nil _ (by simpa using h)

/-- Witness of C10 amended: on the store `Y=7`, `X=1` and the environment `A=B=C` the token
`$A=B` becomes `C`, the two inner empty tokens go and the last one stays. -/
theorem handle_dollor_value_removal_witness :
    handle_dollor_value { env := ["A=B=C"], vars := sampleStore }
        ["$A=B", "$NONE", "echo", "$NONE", "$X", "$NONE"] =
      some ({ env := ["A=B=C"], vars := sampleStore }, ["C", "echo", "1", ""]) := by
  obtain ⟨out, h1, h2, _, _⟩ :=
    handle_dollor_value_removal { env := ["A=B=C"], vars := sampleStore } sampleStore_inv
      ["$A=B", "$NONE", "echo", "$NONE", "$X", "$NONE"]
  rw [h1, h2]
  decide

/-- C10 as stated fails: with `UNSET_VAR` set neither in the environment nor in the store,
the vector `echo $UNSET_VAR` comes out with two tokens, the second one the empty string:
the token is the last one and line 174 removes a token only when another one follows. -/
theorem handle_dollor_value_removal_counterexample :
    handle_dollor_value { env := [], vars := VarStore.empty } ["echo", "$UNSET_VAR"] =
      some ({ env := [], vars := VarStore.empty }, ["echo", ""]) := by
  decide

/-! ## Tokenizer -/

theorem strsep_snd_length (delim : List Char) : ∀ (s r : List Char),
    (strsep delim s).2 = some r → r.length < s.length := by
  intro s
  induction s with
  | nil => intro r h; simp [strsep] at h
  | cons c rest ih =>
    intro r h
    simp only [strsep] at h
    split at h
    · simp only [Option.some.injEq] at h
      subst h
      simp
    · have := ih r h
      simp only [List.length_cons]
      omega

theorem strsep_fst_no_delim (delim : List Char) : ∀ (s : List Char),
    ∀ c ∈ (strsep delim s).1, c ∉ delim := by
  intro s
  induction s with
  | nil => intro c h; simp [strsep] at h
  | cons a rest ih =>
    intro c h
    simp only [strsep] at h
    split at h
    · simp at h
    · rename_i hnd
      rcases List.mem_cons.mp h with h1 | h1
      · rw [h1]
        exact hnd
      · exact ih c h1

theorem strsep_splitOnP (delim : List Char) : ∀ (s : List Char),
    s.splitOnP (fun c => c ∈ delim) =
      (strsep delim s).1 ::
        (match (strsep delim s).2 with
          | none => []
          | some r => r.splitOnP (fun c => c ∈ delim)) := by
  intro s
  induction s with
  | nil => simp [strsep, List.splitOnP_nil]
  | cons a rest ih =>
    rw [List.splitOnP_cons]
    by_cases ha : a ∈ delim
    · simp [strsep, ha]
    · simp only [strsep, ha, decide_False, if_false, Bool.false_eq_true]
      rw [ih]
      rfl

theorem tokenRuns_step (s : List Char) :
    tokenRuns (String.mk s) =
      (if (strsep delimiter s).1 = [] then [] else [String.mk (strsep delimiter s).1]) ++
        (match (strsep delimiter s).2 with
          | none => []
          | some r => tokenRuns (String.mk r)) := by
  unfold tokenRuns
  simp only
  rw [strsep_splitOnP delimiter s]
  by_cases h : (strsep delimiter s).1 = []
  · simp only [h, List.filter_cons, ne_eq, not_true_eq_false, decide_False, if_true,
      Bool.false_eq_true, if_false, List.nil_append]
    cases (strsep delimiter s).2 <;> rfl
  · simp only [h, List.filter_cons, ne_eq, not_false_eq_true, decide_True, if_true, if_false,
      List.map_cons, List.singleton_append]
    cases (strsep delimiter s).2 <;> rfl

theorem parse_input_loop_eq : ∀ (n : Nat) (s : List Char), s.length ≤ n →
    ∀ (fuel : Nat) (args : List String), n + 1 < fuel → args.length ≤ MAX_ARGS →
      parse_input_loop fuel (some s) args =
        some ((args ++ tokenRuns (String.mk s)).take MAX_ARGS) := by
  intro n
  induction n with
  | zero =>
    intro s hs fuel args hf ha
    have hnil : s = [] := List.length_eq_zero.mp (by omega)
    subst hnil
    obtain ⟨f, rfl⟩ : ∃ f, fuel = f + 1 := ⟨fuel - 1, by omega⟩
    obtain ⟨g, rfl⟩ : ∃ g, f = g + 1 := ⟨f - 1, by omega⟩
    rw [tokenRuns_step]
    simp only [parse_input_loop, strsep, if_true, List.append_nil]
    split
    · rw [List.take_of_length_le ha]
    · rw [List.take_of_length_le ha]
  | succ n ih =>
    intro s hs fuel args hf ha
    obtain ⟨f, rfl⟩ : ∃ f, fuel = f + 1 := ⟨fuel - 1, by omega⟩
    obtain ⟨g, rfl⟩ : ∃ g, f = g + 1 := ⟨f - 1, by omega⟩
    rw [tokenRuns_step, parse_input_loop]
    by_cases hlt : args.length < MAX_ARGS
    · rw [if_pos hlt]
      cases hr : (strsep delimiter s).2 with
      | none =>
        simp only [parse_input_loop, List.append_nil]
        split
        · rw [List.append_nil, List.take_of_length_le ha]
        · rw [List.take_of_length_le (by simp; omega)]
      | some r =>
        have hrl := strsep_snd_length delimiter s r hr
        simp only
        split
        · rw [ih r (by omega) (g + 1) args (by omega) ha, List.nil_append]
        · rw [ih r (by omega) (g + 1) _ (by omega) (by simp; omega), List.append_assoc]
    · rw [if_neg hlt]
      have hl : args.length = MAX_ARGS := by omega
      rw [List.take_append_of_le_length (by omega), List.take_of_length_le (by omega)]

theorem parse_input_eq (input : String) :
    parse_input input = some ((tokenRuns input).take MAX_ARGS) := by
  unfold parse_input
  rw [parse_input_loop_eq input.data.length input.data (le_refl _) _ [] (by omega)
    (by simp [MAX_ARGS])]
  rfl

theorem pipeSegments_step (s : List Char) :
    pipeSegments (String.mk s) =
      String.mk (strsep ['|'] s).1 ::
        (match (strsep ['|'] s).2 with
          | none => []
          | some r => pipeSegments (String.mk r)) := by
  have hp : (fun c : Char => decide (c = '|')) = (fun c => decide (c ∈ ['|'])) := by
    funext c
    simp
  unfold pipeSegments
  simp only [hp]
  rw [strsep_splitOnP ['|'] s]
  cases (strsep ['|'] s).2 <;> rfl

theorem take_snoc_lt {α : Type} (l : List α) (a : α) (k : Nat) (h : l.length < k) :
    (l ++ [a]).take k = l ++ [a] :=
  List.take_of_length_le (by simp; omega)

theorem parse_pipe_input_loop_eq : ∀ (n : Nat) (s : List Char), s.length ≤ n →
    ∀ (fuel : Nat) (cmd : List (List String)), n + 1 < fuel → cmd.length ≤ MAX_ARGS - 1 →
      parse_pipe_input_loop fuel (some s) cmd =
        some ((cmd ++ (pipeSegments (String.mk s)).map
          (fun seg => (tokenRuns seg).take MAX_ARGS)).take (MAX_ARGS - 1)) := by
  intro n
  induction n with
  | zero =>
    intro s hs fuel cmd hf ha
    have hnil : s = [] := List.length_eq_zero.mp (by omega)
    subst hnil
    obtain ⟨f, rfl⟩ : ∃ f, fuel = f + 1 := ⟨fuel - 1, by omega⟩
    obtain ⟨g, rfl⟩ : ∃ g, f = g + 1 := ⟨f - 1, by omega⟩
    rw [pipeSegments_step, parse_pipe_input_loop]
    by_cases hlt : cmd.length < MAX_ARGS - 1
    · rw [if_pos hlt, parse_input_eq]
      simp only [strsep, Option.some_bind, parse_pipe_input_loop, List.map_cons, List.map_nil]
      rw [take_snoc_lt _ _ _ hlt]
    · rw [if_neg hlt]
      rw [List.take_append_of_le_length (by omega), List.take_of_length_le (by omega)]
  | succ n ih =>
    intro s hs fuel cmd hf ha
    obtain ⟨f, rfl⟩ : ∃ f, fuel = f + 1 := ⟨fuel - 1, by omega⟩
    obtain ⟨g, rfl⟩ : ∃ g, f = g + 1 := ⟨f - 1, by omega⟩
    rw [pipeSegments_step, parse_pipe_input_loop]
    by_cases hlt : cmd.length < MAX_ARGS - 1
    · rw [if_pos hlt, parse_input_eq]
      simp only [Option.some_bind]
      cases hr : (strsep ['|'] s).2 with
      | none =>
        simp only [parse_pipe_input_loop, List.map_cons, List.map_nil]
        rw [take_snoc_lt _ _ _ hlt]
      | some r =>
        have hrl := strsep_snd_length ['|'] s r hr
        simp only [List.map_cons]
        rw [ih r (by omega) (g + 1) _ (by omega) (by simp; omega), List.append_assoc]
        rfl
    · rw [if_neg hlt]
      rw [List.take_append_of_le_length (by omega), List.take_of_length_le (by omega)]

theorem parse_pipe_input_eq (input : String) :
    parse_pipe_input input =
      some (((pipeSegments input).map (fun seg => (tokenRuns seg).take MAX_ARGS)).take
        (MAX_ARGS - 1)) := by
  unfold parse_pipe_input
  rw [parse_pipe_input_loop_eq input.data.length input.data (le_refl _) _ [] (by omega)
    (by simp [MAX_ARGS])]
  rfl

theorem splitOnP_no_delim (delim : List Char) : ∀ (n : Nat) (s : List Char), s.length ≤ n →
    ∀ piece ∈ s.splitOnP (fun c => c ∈ delim), ∀ c ∈ piece, c ∉ delim := by
  intro n
  induction n with
  | zero =>
    intro s hs piece hp c hc
    have hnil : s = [] := List.length_eq_zero.mp (by omega)
    subst hnil
    simp only [List.splitOnP_nil, List.mem_singleton] at hp
    subst hp
    simp at hc
  | succ n ih =>
    intro s hs piece hp c hc
    rw [strsep_splitOnP delim s] at hp
    rcases List.mem_cons.mp hp with h1 | h1
    · subst h1
      exact strsep_fst_no_delim delim s c hc
    · cases hr : (strsep delim s).2 with
      | none => simp [hr] at h1
      | some r =>
        have hrl := strsep_snd_length delim s r hr
        simp only [hr] at h1
        exact ih r (by omega) piece h1 c hc

theorem tokenRuns_mem (s : String) (t : String) (ht : t ∈ tokenRuns s) :
    t ≠ "" ∧ ∀ c ∈ t.data, c ≠ ' ' ∧ c ≠ '\t' ∧ c ≠ '\n' := by
  unfold tokenRuns at ht
  simp only [List.mem_map, List.mem_filter, ne_eq, decide_not, Bool.not_eq_true',
    decide_eq_false_iff_not] at ht
  obtain ⟨piece, ⟨hp, hne⟩, rfl⟩ := ht
  constructor
  · intro h
    apply hne
    have := congrArg String.data h
    simpa using this
  · intro c hc
    have := splitOnP_no_delim delimiter s.data.length s.data (le_refl _) piece hp c hc
    simp only [delimiter, List.mem_cons, List.mem_singleton, List.not_mem_nil, or_false,
      not_or] at this
    exact this

theorem tokenRuns_blank (s : String) (h : ∀ c ∈ s.data, c ∈ delimiter) : tokenRuns s = [] := by
  obtain ⟨cs⟩ := s
  simp only at h
  induction cs with
  | nil => rfl
  | cons a rest ih =>
    have ha : a ∈ delimiter := h a (List.mem_cons_self _ _)
    have hrest := ih (fun c hc => h c (List.mem_cons_of_mem _ hc))
    rw [tokenRuns_step]
    simp only [strsep, ha, if_true, List.nil_append]
    exact hrest

theorem pipeSegments_single (line : String) (h : '|' ∉ line.data) :
    pipeSegments line = [line] := by
  unfold pipeSegments
  rw [List.splitOnP_eq_single]
  · rfl
  · intro x hx
    simp only [decide_eq_true_eq]
    intro he
    exact h (he ▸ hx)

/-- C11. For every input line that contains no `|`, parse_pipe_input returns exactly one
stage, the result of parse_input on the line: in order, the first min(m, 64) of the `m`
maximal runs of characters other than space, tab and newline; no returned token is empty or
holds a space, tab or newline, and a line made only of those characters gives one stage
with zero tokens. -/
theorem parse_pipe_input_single (line : String) (h : '|' ∉ line.data) :
    ∃ toks, parse_input line = some toks ∧ parse_pipe_input line = some [toks] ∧
      toks = (tokenRuns line).take 64 ∧
      toks.length = min (tokenRuns line).length 64 ∧
      (∀ t ∈ toks, t ≠ "" ∧ ∀ c ∈ t.data, c ≠ ' ' ∧ c ≠ '\t' ∧ c ≠ '\n') ∧
      ((∀ c ∈ line.data, c = ' ' ∨ c = '\t' ∨ c = '\n') → toks = []) := by
  refine ⟨(tokenRuns line).take 64, parse_input_eq line, ?_, rfl, ?_, ?_, ?_⟩
  · rw [parse_pipe_input_eq, pipeSegments_single line h]
    rfl
  · rw [List.length_take]
    omega
  · intro t ht
    exact tokenRuns_mem line t (List.mem_of_mem_take ht)
  · intro hb
    rw [tokenRuns_blank line]
    · rfl
    · intro c hc
      simpa [delimiter] using hb c hc

/-- Witness of C11: the line `ls -l /tmp` with its newline. -/
theorem parse_pipe_input_single_witness :
    ∃ toks, parse_input "ls  -l\t/tmp\n" = some toks ∧
      parse_pipe_input "ls  -l\t/tmp\n" = some [toks] ∧
      toks = (tokenRuns "ls  -l\t/tmp\n").take 64 ∧
      toks.length = min (tokenRuns "ls  -l\t/tmp\n").length 64 ∧
      (∀ t ∈ toks, t ≠ "" ∧ ∀ c ∈ t.data, c ≠ ' ' ∧ c ≠ '\t' ∧ c ≠ '\n') ∧
      ((∀ c ∈ "ls  -l\t/tmp\n".data, c = ' ' ∨ c = '\t' ∨ c = '\n') → toks = []) :=
  parse_pipe_input_single "ls  -l\t/tmp\n" (by decide)

theorem splitOnP_length (p : Char → Bool) : ∀ (s : List Char),
    (s.splitOnP p).length = s.countP p + 1 := by
  intro s
  induction s with
  | nil => simp [List.splitOnP_nil]
  | cons a rest ih =>
    rw [List.splitOnP_cons, List.countP_cons]
    by_cases ha : p a = true
    · simp [ha, ih]
    · simp [ha, ih]

theorem pipeSegments_length (line : String) :
    (pipeSegments line).length = line.data.count '|' + 1 := by
  unfold pipeSegments
  rw [List.length_map, splitOnP_length, List.count_eq_countP]
  rfl

/-- C18, amended. For every input line with `s` segments separated by `|` (`s` is the
number of `|` characters plus one), parse_pipe_input returns exactly min(s, 63) stages,
stage `i` being the result of parse_input on the `i`-th segment in left-to-right order;
the segments after the 63rd are dropped. -/
theorem parse_pipe_input_stages (line : String) :
    ∃ stages, parse_pipe_input line = some stages ∧
      stages.length = min (line.data.count '|' + 1) 63 ∧
      ∀ i, i < stages.length →
        ∃ seg, (pipeSegments line)[i]? = some seg ∧ parse_input seg = stages[i]? := by
  refine ⟨_, parse_pipe_input_eq line, ?_, ?_⟩
  · rw [List.length_take, List.length_map, pipeSegments_length]
    simp only [MAX_ARGS]
    omega
  · intro i hi
    simp only [List.length_take, List.length_map] at hi
    have hil : i < (pipeSegments line).length := by omega
    refine ⟨(pipeSegments line)[i], List.getElem?_eq_getElem hil, ?_⟩
    rw [parse_input_eq, List.getElem?_take_of_lt (by omega), List.getElem?_map,
      List.getElem?_eq_getElem hil]
    rfl

set_option maxRecDepth 100000 in
/-- C18 as stated fails: the line `a|a|...|a` with 63 `|` characters has 64 segments, and
parse_pipe_input returns 63 stages, not 64: the loop of line 228 runs while
`cmd_count < MAX_ARGS - 1`. -/
theorem parse_pipe_input_stages_counterexample :
    (String.mk ((List.replicate 63 ['a', '|']).flatten ++ ['a', '\n'])).data.count '|' + 1
        = 64 ∧
      (parse_pipe_input
        (String.mk ((List.replicate 63 ['a', '|']).flatten ++ ['a', '\n']))).map List.length
        = some 63 := by
  decide

/-! ## Variable commands -/

theorem takeWhile_stop (p : Char → Bool) (c : Char) (rest : List Char) (hc : p c = false) :
    ∀ (n : List Char), (∀ x ∈ n, p x = true) → (n ++ c :: rest).takeWhile p = n := by
  intro n
  induction n with
  | nil => intro _; simp [List.takeWhile_cons, hc]
  | cons a n ih =>
    intro h
    have ha := h a (List.mem_cons_self _ _)
    simp only [List.cons_append, List.takeWhile_cons, ha, if_true]
    rw [ih (fun x hx => h x (List.mem_cons_of_mem _ hx))]

theorem dropWhile_stop (p : Char → Bool) (c : Char) (rest : List Char) (hc : p c = false) :
    ∀ (n : List Char), (∀ x ∈ n, p x = true) → (n ++ c :: rest).dropWhile p = c :: rest := by
  intro n
  induction n with
  | nil => intro _; simp [List.dropWhile_cons, hc]
  | cons a n ih =>
    intro h
    have ha := h a (List.mem_cons_self _ _)
    simp only [List.cons_append, List.dropWhile_cons, ha, if_true]
    exact ih (fun x hx => h x (List.mem_cons_of_mem _ hx))

theorem takeWhile_all (p : Char → Bool) : ∀ (n : List Char), (∀ x ∈ n, p x = true) →
    n.takeWhile p = n := by
  intro n h
  rw [List.takeWhile_eq_self_iff]
  exact h

theorem dropWhile_all (p : Char → Bool) : ∀ (n : List Char), (∀ x ∈ n, p x = true) →
    n.dropWhile p = [] := by
  intro n h
  rw [List.dropWhile_eq_nil_iff]
  exact h

theorem dropWhile_none (p : Char → Bool) (s : List Char) (a : Char) (ha : p a = false) :
    (a :: s).dropWhile p = a :: s := by
  simp [List.dropWhile_cons, ha]

theorem strtok_rest (s : List Char) (hs : s ≠ []) : strtok [] s = some (s, []) := by
  unfold strtok
  have h1 : s.dropWhile (fun c => decide (c ∈ ([] : List Char))) = s := by
    cases s with
    | nil => rfl
    | cons a r => exact dropWhile_none _ _ _ (by simp)
  have h2 : s.takeWhile (fun c => decide (c ∉ ([] : List Char))) = s :=
    takeWhile_all _ _ (by simp)
  have h3 : s.dropWhile (fun c => decide (c ∉ ([] : List Char))) = [] :=
    dropWhile_all _ _ (by simp)
  rw [h1, if_neg hs, h2, h3]
  rfl

theorem strtok_rest_nil : strtok [] [] = none := rfl

theorem strtok_assign (n v : List Char) (hn : n ≠ []) (hne : '=' ∉ n) :
    strtok ['='] (n ++ '=' :: v) = some (n, v) := by
  unfold strtok
  obtain ⟨a, r, rfl⟩ : ∃ a r, n = a :: r := by
    cases n with
    | nil => exact absurd rfl hn
    | cons a r => exact ⟨a, r, rfl⟩
  have ha : a ≠ '=' := fun h => hne (by simp [h])
  have h1 : ((a :: r) ++ '=' :: v).dropWhile (fun c => decide (c ∈ ['='])) =
      (a :: r) ++ '=' :: v := dropWhile_none _ _ _ (by simp [ha])
  have hall : ∀ x ∈ a :: r, (fun c => decide (c ∉ ['='])) x = true := by
    intro x hx
    simp only [List.mem_singleton, decide_not, Bool.not_eq_true', decide_eq_false_iff_not]
    intro h
    exact hne (h ▸ hx)
  have h2 := takeWhile_stop (fun c => decide (c ∉ ['='])) '=' v (by simp) (a :: r) hall
  have h3 := dropWhile_stop (fun c => decide (c ∉ ['='])) '=' v (by simp) (a :: r) hall
  rw [h1, if_neg (by simp), h2, h3]
  rfl

theorem strtok_no_assign (n : List Char) (hn : n ≠ []) (hne : '=' ∉ n) :
    strtok ['='] n = some (n, []) := by
  unfold strtok
  obtain ⟨a, r, rfl⟩ : ∃ a r, n = a :: r := by
    cases n with
    | nil => exact absurd rfl hn
    | cons a r => exact ⟨a, r, rfl⟩
  have ha : a ≠ '=' := fun h => hne (by simp [h])
  have h1 : (a :: r).dropWhile (fun c => decide (c ∈ ['='])) = a :: r :=
    dropWhile_none _ _ _ (by simp [ha])
  have hall : ∀ x ∈ a :: r, (fun c => decide (c ∉ ['='])) x = true := by
    intro x hx
    simp only [List.mem_singleton, decide_not, Bool.not_eq_true', decide_eq_false_iff_not]
    intro h
    exact hne (h ▸ hx)
  rw [h1, if_neg (by simp), takeWhile_all _ _ hall, dropWhile_all _ _ hall]
  rfl

theorem strtok_local (rest : List Char) :
    strtok [' '] ('l' :: 'o' :: 'c' :: 'a' :: 'l' :: ' ' :: rest) =
      some (['l', 'o', 'c', 'a', 'l'], rest) := by
  simp [strtok, List.dropWhile_cons, List.takeWhile_cons]

theorem strtok_export (rest : List Char) :
    strtok [' '] ('e' :: 'x' :: 'p' :: 'o' :: 'r' :: 't' :: ' ' :: rest) =
      some (['e', 'x', 'p', 'o', 'r', 't'], rest) := by
  simp [strtok, List.dropWhile_cons, List.takeWhile_cons]

theorem trim_newline_line (v : List Char) (h : '\n' ∉ v) :
    trim_newline (String.mk (v ++ ['\n'])) = String.mk v := by
  unfold trim_newline
  simp only
  rw [takeWhile_stop (fun c => decide (c ≠ '\n')) '\n' [] (by simp) v]
  intro x hx
  simp only [ne_eq, decide_not, Bool.not_eq_true', decide_eq_false_iff_not]
  intro he
  exact h (he ▸ hx)

theorem local_line_data (rest : String) :
    ("local " ++ rest).data = 'l' :: 'o' :: 'c' :: 'a' :: 'l' :: ' ' :: rest.data := rfl

theorem export_line_data (rest : String) :
    ("export " ++ rest).data = 'e' :: 'x' :: 'p' :: 'o' :: 'r' :: 't' :: ' ' :: rest.data := rfl

theorem assign_data (N V : String) :
    (N ++ "=" ++ V ++ "\n").data = N.data ++ '=' :: (V.data ++ ['\n']) := by
  simp [String.data_append]

theorem string_ne_empty (N : String) (h : N ≠ "") : N.data ≠ [] := by
  intro he
  apply h
  obtain ⟨n⟩ := N
  simp only at he
  subst he
  rfl

theorem env_match_self (name value : String) :
    env_match name (name ++ "=" ++ value) = true := by
  unfold env_match
  rw [List.isPrefixOf_iff_prefix]
  exact ⟨value.data, by simp [String.data_append]⟩

theorem drop_name_entry (name value : String) :
    String.mk ((name ++ "=" ++ value).data.drop (name.data.length + 1)) = value := by
  have e : (name ++ "=" ++ value).data = (name.data ++ ['=']) ++ value.data := by
    simp [String.data_append]
  rw [e, List.drop_left' (by simp)]

theorem getenv_put_env (name value : String) (hn : name ≠ "") : ∀ (env : Env),
    getenv (put_env env name value) name = some value := by
  intro env
  unfold getenv
  rw [if_neg hn]
  induction env with
  | nil =>
    simp only [put_env, List.find?_cons, env_match_self, Option.map_some', drop_name_entry]
  | cons e rest ih =>
    simp only [put_env]
    by_cases hm : env_match name e = true
    · simp only [hm, if_true, List.find?_cons, env_match_self, Option.map_some',
        drop_name_entry]
    · simp only [hm, if_false, Bool.false_eq_true]
      rw [List.find?_cons_of_neg _ hm]
      exact ih

theorem getenv_setenv (env : Env) (name value : String) (hn : name ≠ "")
    (he : '=' ∉ name.data) :
    ∃ env1, setenv env name value = some env1 ∧ getenv env1 name = some value := by
  refine ⟨put_env env name value, ?_, getenv_put_env name value hn env⟩
  simp [setenv, hn, he]

theorem handle_var_command_local (sh : ShellState) (N V : String) (hN : N ≠ "")
    (hNe : '=' ∉ N.data) :
    handle_var_command sh ("local " ++ (N ++ "=" ++ V ++ "\n")) =
      (set_shell_var sh.vars N (V ++ "\n")).map fun vars => ({ sh with vars := vars }, []) := by
  unfold handle_var_command
  rw [local_line_data, strtok_local, assign_data]
  simp only
  rw [strtok_rest _ (by simp)]
  simp only
  rw [strtok_assign _ _ (string_ne_empty N hN) hNe]
  simp only
  rw [strtok_rest _ (by simp)]
  simp only [if_true]
  rfl

theorem handle_var_command_export (sh : ShellState) (N V : String) (hN : N ≠ "")
    (hNe : '=' ∉ N.data) (hVn : '\n' ∉ V.data) :
    handle_var_command sh ("export " ++ (N ++ "=" ++ V ++ "\n")) =
      match setenv sh.env N V with
      | some env => some ({ sh with env := env }, [])
      | none => some (sh, ["setenv failed: Invalid argument\n"]) := by
  unfold handle_var_command
  rw [export_line_data, strtok_export, assign_data]
  simp only
  rw [strtok_rest _ (by simp)]
  simp only
  rw [strtok_assign _ _ (string_ne_empty N hN) hNe]
  simp only
  rw [strtok_rest _ (by simp)]
  have hne : ¬ (String.mk ['e', 'x', 'p', 'o', 'r', 't'] = "local") := by decide
  simp only [hne, if_false, if_true]
  rw [trim_newline_line V.data hVn]

theorem local_assoc (N V : String) :
    "local " ++ N ++ "=" ++ V ++ "\n" = "local " ++ (N ++ "=" ++ V ++ "\n") := by
  simp [String.append_assoc]

theorem export_assoc (N V : String) :
    "export " ++ N ++ "=" ++ V ++ "\n" = "export " ++ (N ++ "=" ++ V ++ "\n") := by
  simp [String.append_assoc]

theorem handle_var_command_local_find (sh : ShellState) (hs : StoreInv sh.vars)
    (N V : String) (hN : N ≠ "") (hNe : '=' ∉ N.data) (hVn : '\n' ∉ V.data) :
    ∃ sh1 p node, handle_var_command sh ("local " ++ N ++ "=" ++ V ++ "\n") = some (sh1, []) ∧
      sh1.env = sh.env ∧ find_shell_var sh1.vars sh1.vars.shellVars N = some (some p) ∧
      sh1.vars.nodes[p]? = some node ∧ node.value = V := by
  obtain ⟨s1, p, node, h1, _, hf, hn, hv⟩ := set_then_find sh.vars hs N (V ++ "\n")
  refine ⟨{ sh with vars := s1 }, p, node, ?_, rfl, hf, hn, ?_⟩
  · rw [local_assoc, handle_var_command_local sh N V hN hNe, h1]
    rfl
  · rw [hv]
    exact trim_newline_line V.data hVn

theorem handle_var_command_export_getenv (sh : ShellState) (N V : String) (hN : N ≠ "")
    (hNe : '=' ∉ N.data) (hVn : '\n' ∉ V.data) :
    ∃ sh1, handle_var_command sh ("export " ++ N ++ "=" ++ V ++ "\n") = some (sh1, []) ∧
      sh1.vars = sh.vars ∧ getenv sh1.env N = some V := by
  obtain ⟨env1, h1, hg⟩ := getenv_setenv sh.env N V hN hNe
  refine ⟨{ sh with env := env1 }, ?_, rfl, hg⟩
  rw [export_assoc, handle_var_command_export sh N V hN hNe hVn, h1]

/-- C12. For every line `local N=V` or `export N=V` followed by a newline, where `N` is
non-empty and holds no `=` and `V` holds no newline (`V` may hold `=`), handle_var_command
splits at the first `=`: for `local` the variable store afterwards holds the value `V`
for `N` and the environment is as before; for `export` the environment afterwards holds
the value `V` for `N` and the variable store is as before. No line is emitted. -/
theorem handle_var_command_assign (sh : ShellState) (hs : StoreInv sh.vars) (N V : String)
    (hN : N ≠ "") (hNe : '=' ∉ N.data) (hVn : '\n' ∉ V.data) :
    (∃ sh1 p node,
      handle_var_command sh ("local " ++ N ++ "=" ++ V ++ "\n") = some (sh1, []) ∧
      sh1.env = sh.env ∧ find_shell_var sh1.vars sh1.vars.shellVars N = some (some p) ∧
      sh1.vars.nodes[p]? = some node ∧ node.value = V) ∧
    (∃ sh1, handle_var_command sh ("export " ++ N ++ "=" ++ V ++ "\n") = some (sh1, []) ∧
      sh1.vars = sh.vars ∧ getenv sh1.env N = some V) :=
  ⟨handle_var_command_local_find sh hs N V hN hNe hVn,
    handle_var_command_export_getenv sh N V hN hNe hVn⟩

/-- Witness of C12: the name `X` and the value `a=b` on the store `Y=7`, `X=1`. -/
theorem handle_var_command_assign_witness :
    (∃ sh1 p node,
      handle_var_command { env := ["X=0"], vars := sampleStore }
        ("local " ++ "X" ++ "=" ++ "a=b" ++ "\n") = some (sh1, []) ∧
      sh1.env = ["X=0"] ∧ find_shell_var sh1.vars sh1.vars.shellVars "X" = some (some p) ∧
      sh1.vars.nodes[p]? = some node ∧ node.value = "a=b") ∧
    (∃ sh1, handle_var_command { env := ["X=0"], vars := sampleStore }
        ("export " ++ "X" ++ "=" ++ "a=b" ++ "\n") = some (sh1, []) ∧
      sh1.vars = sampleStore ∧ getenv sh1.env "X" = some "a=b") :=
  handle_var_command_assign { env := ["X=0"], vars := sampleStore } sampleStore_inv
    "X" "a=b" (by decide) (by decide) (by decide)

theorem handle_var_command_no_assign (sh : ShellState) (cmd : List Char) (rest : String)
    (hc : strtok [' '] (cmd ++ ' ' :: rest.data) = some (cmd, rest.data))
    (h : '=' ∉ rest.data) :
    handle_var_command sh (String.mk (cmd ++ ' ' :: rest.data)) =
      some (sh, [if rest = "" then "Error: No variable assignment provided.\n"
        else "Error: Invalid variable assignment format.\n"]) := by
  unfold handle_var_command
  simp only [hc]
  by_cases hr : rest = ""
  · subst hr
    simp [strtok_rest_nil]
  · have hd := string_ne_empty rest hr
    rw [strtok_rest _ hd]
    simp only
    rw [strtok_no_assign _ hd h]
    simp [strtok_rest_nil, hr]

/-- C15, amended. For every line beginning with `local ` or `export ` whose assignment holds
no `=`, handle_var_command reports an error and leaves the variable store and the environment
as they were, and so it does for the lines `local =` and `export =`, where the name before
the `=` is empty. A line with a non-empty name `N` (holding no `=`) and nothing between the
`=` and the terminating newline is not an error: `local N=` sets `N` to the empty string in
the store and `export N=` sets it to the empty string in the environment, and no line is
emitted. -/
theorem handle_var_command_malformed (sh : ShellState) (hs : StoreInv sh.vars)
    (rest N : String) (h : '=' ∉ rest.data) (hN : N ≠ "") (hNe : '=' ∉ N.data) :
    handle_var_command sh ("local " ++ rest) =
      some (sh, [if rest = "" then "Error: No variable assignment provided.\n"
        else "Error: Invalid variable assignment format.\n"]) ∧
    handle_var_command sh ("export " ++ rest) =
      some (sh, [if rest = "" then "Error: No variable assignment provided.\n"
        else "Error: Invalid variable assignment format.\n"]) ∧
    (∃ sh1 p node,
      handle_var_command sh ("local " ++ N ++ "=\n") = some (sh1, []) ∧
      sh1.env = sh.env ∧ find_shell_var sh1.vars sh1.vars.shellVars N = some (some p) ∧
      sh1.vars.nodes[p]? = some node ∧ node.value = "") ∧
    (∃ sh1, handle_var_command sh ("export " ++ N ++ "=\n") = some (sh1, []) ∧
      sh1.vars = sh.vars ∧ getenv sh1.env N = some "") ∧
    handle_var_command sh "local =\n" =
      some (sh, ["Error: Invalid variable assignment format.\n"]) ∧
    handle_var_command sh "export =\n" =
      some (sh, ["Error: Invalid variable assignment format.\n"]) := by
  have e1 : "local " ++ N ++ "=\n" = "local " ++ N ++ "=" ++ "" ++ "\n" := by
    apply String.ext
    simp [String.data_append]
  have e2 : "export " ++ N ++ "=\n" = "export " ++ N ++ "=" ++ "" ++ "\n" := by
    apply String.ext
    simp [String.data_append]
  rw [e1, e2]
  refine ⟨?_, ?_, ?_, ?_, rfl, rfl⟩
  · exact handle_var_command_no_assign sh ['l', 'o', 'c', 'a', 'l'] rest
      (strtok_local rest.data) h
  · exact handle_var_command_no_assign sh ['e', 'x', 'p', 'o', 'r', 't'] rest
      (strtok_export rest.data) h
  · exact handle_var_command_local_find sh hs N "" hN hNe (by simp)
  · exact handle_var_command_export_getenv sh N "" hN hNe (by simp)

/-- Witness of C15 amended: `local X`, `export X`, `local =` and `export =` are errors,
`local X=` and `export X=` set `X` to the empty string. -/
theorem handle_var_command_malformed_witness :
    handle_var_command { env := ["X=0"], vars := sampleStore } ("local " ++ "X\n") =
      some ({ env := ["X=0"], vars := sampleStore },
        [if "X\n" = "" then "Error: No variable assignment provided.\n"
          else "Error: Invalid variable assignment format.\n"]) ∧
    handle_var_command { env := ["X=0"], vars := sampleStore } ("export " ++ "X\n") =
      some ({ env := ["X=0"], vars := sampleStore },
        [if "X\n" = "" then "Error: No variable assignment provided.\n"
          else "Error: Invalid variable assignment format.\n"]) ∧
    (∃ sh1 p node,
      handle_var_command { env := ["X=0"], vars := sampleStore }
        ("local " ++ "X" ++ "=\n") = some (sh1, []) ∧
      sh1.env = ["X=0"] ∧ find_shell_var sh1.vars sh1.vars.shellVars "X" = some (some p) ∧
      sh1.vars.nodes[p]? = some node ∧ node.value = "") ∧
    (∃ sh1, handle_var_command { env := ["X=0"], vars := sampleStore }
        ("export " ++ "X" ++ "=\n") = some (sh1, []) ∧
      sh1.vars = sampleStore ∧ getenv sh1.env "X" = some "") ∧
    handle_var_command { env := ["X=0"], vars := sampleStore } "local =\n" =
      some ({ env := ["X=0"], vars := sampleStore },
        ["Error: Invalid variable assignment format.\n"]) ∧
    handle_var_command { env := ["X=0"], vars := sampleStore } "export =\n" =
      some ({ env := ["X=0"], vars := sampleStore },
        ["Error: Invalid variable assignment format.\n"]) :=
  handle_var_command_malformed { env := ["X=0"], vars := sampleStore } sampleStore_inv
    "X\n" "X" (by decide) (by decide) (by decide)

/-- C15 as stated fails: on the line `local X=` with its newline, the second strtok of
line 415 returns the newline, not NULL, so no error is reported, and set_shell_var stores
the empty value for `X`: the store is changed. -/
theorem handle_var_command_malformed_counterexample :
    (handle_var_command { env := [], vars := VarStore.empty } "local X=\n").map
      (fun r => (r.1.vars.pairs, r.2)) = some ([("X", "")], []) ∧
    VarStore.empty.pairs = [] := by
  decide


/-- C19. The removal pass of handle_dollor_value returns on every vector: for a non-empty
vector `t1 .. tn` the result is the non-empty tokens among `t1 .. t(n-1)` in their order,
followed by `tn`, which is kept whatever its value, so the result is never of length zero
and can end in one empty token; for the empty vector the result is empty. -/
theorem removal_pass_exact (init : List String) (last : String) :
    removal_pass (init ++ [last]) = some (init.filter (fun t => t ≠ "") ++ [last]) ∧
    removal_pass [] = some [] ∧
    ∀ args, ∃ out, removal_pass args = some out ∧
      out = (args.dropLast.filter (fun t => t ≠ "")) ++ args.getLast?.toList ∧
      (args ≠ [] → out ≠ []) := by
  refine ⟨?_, rfl, ?_⟩
  · rw [removal_pass_eq]
    simp [removalSpec]
  · intro args
    exact ⟨removalSpec args, removal_pass_eq args, rfl, removalSpec_ne_nil args⟩

/-- Witness of C19: the inner empty tokens go, the last token stays although it is empty. -/
theorem removal_pass_exact_witness :
    removal_pass (["", "echo", "", "hi"] ++ [""]) =
        some (["", "echo", "", "hi"].filter (fun t => t ≠ "") ++ [""]) ∧
    removal_pass [] = some [] ∧
    ∀ args, ∃ out, removal_pass args = some out ∧
      out = (args.dropLast.filter (fun t => t ≠ "")) ++ args.getLast?.toList ∧
      (args ≠ [] → out ≠ []) :=
  removal_pass_exact ["", "echo", "", "hi"] ""

/-! ## Pipeline executor -/

/-- C13, the failing run: a pipeline of three stages entered with the descriptors 0, 1, 2
open. A pipe is created for every stage, the last one included (line 242), and descriptor
3, the read end of the last pipe, is open on return: line 274 stores it in `fd_in` and no
later line closes it. -/
theorem execute_pipe_command_leak :
    execute_pipe_command [["a"], ["b"], ["c"]] [0, 1, 2] =
      { fds := [3, 0, 1, 2],
        children := [{ args := ["a"], stdin := 0, stdout := some 4 },
                     { args := ["b"], stdin := 3, stdout := some 5 },
                     { args := ["c"], stdin := 4, stdout := none }],
        pipes := [(3, 4), (4, 5), (3, 5)] } := by
  decide

theorem filter_le_succ_lt (fds : List Nat) (n : Nat) (h : n ∈ fds) :
    (fds.filter (fun x => n + 1 ≤ x)).length < (fds.filter (fun x => n ≤ x)).length := by
  induction fds with
  | nil => simp at h
  | cons a rest ih =>
    have hmono : (rest.filter (fun x => n + 1 ≤ x)).length ≤
        (rest.filter (fun x => n ≤ x)).length := by
      clear ih h
      induction rest with
      | nil => simp
      | cons b r ihr =>
        simp only [List.filter_cons]
        by_cases h1 : n + 1 ≤ b
        · have h2 : n ≤ b := by omega
          simp [h1, h2, ihr]
        · by_cases h2 : n ≤ b
          · simp [h1, h2]
            omega
          · simp [h1, h2, ihr]
    simp only [List.filter_cons]
    by_cases ha : a = n
    · subst ha
      simp
      omega
    · have hr : n ∈ rest := by
        rcases List.mem_cons.mp h with h1 | h1
        · exact absurd h1.symm ha
        · exact h1
      have := ih hr
      by_cases h1 : n + 1 ≤ a
      · have h2 : n ≤ a := by omega
        simp [h1, h2]
        omega
      · by_cases h2 : n ≤ a
        · simp [h1, h2]
          omega
        · simp [h1, h2]
          omega

theorem lowest_free_fresh (fds : List Nat) : ∀ (fuel n : Nat),
    (fds.filter (fun x => n ≤ x)).length ≤ fuel → lowest_free fds fuel n ∉ fds := by
  intro fuel
  induction fuel with
  | zero =>
    intro n h hm
    simp only [lowest_free] at hm
    have hmem : n ∈ fds.filter (fun x => n ≤ x) := by
      simp [List.mem_filter, hm]
    have hl : (fds.filter (fun x => n ≤ x)).length = 0 := by omega
    rw [List.length_eq_zero.mp hl] at hmem
    simp at hmem
  | succ fuel ih =>
    intro n h
    simp only [lowest_free]
    split
    · rename_i hn
      apply ih
      have := filter_le_succ_lt fds n hn
      omega
    · assumption

theorem pipe_fresh (fds : List Nat) :
    (pipe fds).1.1 ∉ fds ∧ (pipe fds).1.2 ∉ fds ∧ (pipe fds).1.2 ≠ (pipe fds).1.1 ∧
      (pipe fds).2 = (pipe fds).1.2 :: (pipe fds).1.1 :: fds := by
  have h0 : lowest_free fds fds.length 0 ∉ fds :=
    lowest_free_fresh fds fds.length 0 (List.length_filter_le _ _)
  have h1 : lowest_free (lowest_free fds fds.length 0 :: fds) (fds.length + 1) 0 ∉
      lowest_free fds fds.length 0 :: fds :=
    lowest_free_fresh _ (fds.length + 1) 0 (List.length_filter_le _ _)
  simp only [List.mem_cons, not_or] at h1
  exact ⟨h0, h1.2, h1.1, rfl⟩

theorem execute_pipe_loop_inv (E : List Nat) (h0 : 0 ∈ E) :
    ∀ (cmds : List (List String)) (fd_in : Nat) (run : PipeRun),
      (∀ x, x ∈ run.fds ↔ x ∈ E ∨ (fd_in ≠ 0 ∧ x = fd_in)) → (fd_in ≠ 0 → fd_in ∉ E) →
      cmds ≠ [] →
      ∃ leaked, leaked ∉ E ∧
        (∀ x, x ∈ (execute_pipe_loop cmds fd_in run).fds ↔ x ∈ E ∨ x = leaked) ∧
        (execute_pipe_loop cmds fd_in run).pipes.length = run.pipes.length + cmds.length := by
  intro cmds
  induction cmds with
  | nil => intro _ _ _ _ h; exact absurd rfl h
  | cons stage rest ih =>
    intro fd_in run hfds hin _
    obtain ⟨hp0, hp1, hne, hp⟩ := pipe_fresh run.fds
    have h0f : 0 ∈ run.fds := (hfds 0).mpr (Or.inl h0)
    have hp00 : (pipe run.fds).1.1 ≠ 0 := fun h => hp0 (h ▸ h0f)
    have hp0E : (pipe run.fds).1.1 ∉ E := fun h => hp0 ((hfds _).mpr (Or.inl h))
    have hstep : ∀ x, x ∈ (if fd_in ≠ 0 then close (close (pipe run.fds).2 (pipe run.fds).1.2)
        fd_in else close (pipe run.fds).2 (pipe run.fds).1.2) ↔
        x ∈ E ∨ ((pipe run.fds).1.1 ≠ 0 ∧ x = (pipe run.fds).1.1) := by
      intro x
      have hx := hfds x
      by_cases hfd : fd_in = 0
      · simp only [hfd, ne_eq, not_true_eq_false, if_false, close, hp, List.mem_filter,
          List.mem_cons, decide_not, Bool.not_eq_true', decide_eq_false_iff_not]
        simp only [hfd, ne_eq, not_true_eq_false, false_and, or_false] at hx
        constructor
        · rintro ⟨h1 | h1 | h1, h2⟩
          · exact absurd h1 h2
          · exact Or.inr ⟨hp00, h1⟩
          · exact Or.inl (hx.mp h1)
        · rintro (h1 | ⟨_, h1⟩)
          · exact ⟨Or.inr (Or.inr (hx.mpr h1)), fun h => hp1 (h ▸ hx.mpr h1)⟩
          · exact ⟨Or.inr (Or.inl h1), fun h => hne (h ▸ h1.symm).symm⟩
      · have hinE := hin hfd
        have hfin : fd_in ∈ run.fds := (hfds fd_in).mpr (Or.inr ⟨hfd, rfl⟩)
        simp only [ne_eq, hfd, not_false_eq_true, if_true, close, hp, List.mem_filter,
          List.mem_cons, decide_not, Bool.not_eq_true', decide_eq_false_iff_not]
        simp only [ne_eq, hfd, not_false_eq_true, true_and] at hx
        constructor
        · rintro ⟨⟨h1 | h1 | h1, h2⟩, h3⟩
          · exact absurd h1 h2
          · exact Or.inr ⟨hp00, h1⟩
          · rcases hx.mp h1 with h4 | h4
            · exact Or.inl h4
            · exact absurd h4 h3
        · rintro (h1 | ⟨_, h1⟩)
          · exact ⟨⟨Or.inr (Or.inr (hx.mpr (Or.inl h1))),
              fun h => hp1 (h ▸ hx.mpr (Or.inl h1))⟩, fun h => hinE (h ▸ h1)⟩
          · exact ⟨⟨Or.inr (Or.inl h1), fun h => hne (h ▸ h1.symm).symm⟩,
              fun h => hp0 (h1 ▸ h ▸ hfin)⟩
    by_cases hr : rest = []
    · subst hr
      refine ⟨(pipe run.fds).1.1, hp0E, ?_, ?_⟩
      · intro x
        simp only [execute_pipe_loop]
        rw [hstep x]
        simp [hp00]
      · simp [execute_pipe_loop]
    · obtain ⟨leaked, hl, hfin, hlen⟩ := ih (pipe run.fds).1.1
        { fds := if fd_in ≠ 0 then close (close (pipe run.fds).2 (pipe run.fds).1.2) fd_in
            else close (pipe run.fds).2 (pipe run.fds).1.2,
          children := run.children ++
            [{ args := stage, stdin := fd_in,
               stdout := if rest = [] then none else some (pipe run.fds).1.2 }],
          pipes := run.pipes ++ [(pipe run.fds).1] }
        hstep (fun _ => hp0E) hr
      refine ⟨leaked, hl, hfin, ?_⟩
      rw [execute_pipe_loop, hlen]
      simp
      omega

theorem execute_pipe_command_leaks_one (cmds : List (List String)) (fds : List Nat)
    (h0 : 0 ∈ fds) (hc : cmds ≠ []) :
    ∃ leaked, leaked ∉ fds ∧
      (∀ x, x ∈ (execute_pipe_command cmds fds).fds ↔ x ∈ fds ∨ x = leaked) ∧
      (execute_pipe_command cmds fds).pipes.length = cmds.length := by
  obtain ⟨leaked, h1, h2, h3⟩ := execute_pipe_loop_inv fds h0 cmds 0
    { fds := fds, children := [], pipes := [] } (by simp) (by simp) hc
  exact ⟨leaked, h1, h2, by simpa using h3⟩

/-! ## Command dispatcher -/

/-- The conversion of `atoi` at work: leading blanks are skipped, the digits stop at the
first other character, and a value outside the 32-bit `int` wraps. -/
theorem atoi_values :
    atoi "3" = 3 ∧ atoi " 12x" = 12 ∧ atoi "-7" = -7 ∧ atoi "abc" = 0 ∧
      atoi "4294967296" = 0 ∧ atoi "2147483648" = -2147483648 ∧
      atoi "99999999999999999999" = -1 := by
  decide

/-- C16, the failing run: the blank line. parse_input returns the vector of no tokens, and
execute_command passes `args[0]`, the NULL of the end, to `strcmp` at line 282: the run is
undefined, whatever the state of the shell. -/
theorem execute_command_blank_line :
    parse_input "\n" = some [] ∧
      (∀ s : Shell, execute_command s [] = none) ∧
      ∀ (s : Shell) (fds : List Nat), interactive_line s fds "\n" = none := by
  refine ⟨by decide, fun _ => rfl, ?_⟩
  intro s fds
  have h1 : ¬ ('|' ∈ "\n".data) := by decide
  have h2 : ¬ ("\n" = "vars\n") := by decide
  have h3 : ¬ ("local ".data.isPrefixOf "\n".data = true ∨
      "export ".data.isPrefixOf "\n".data = true) := by decide
  have h4 : parse_input "\n" = some [] := by decide
  simp only [interactive_line, h1, h2, h3, if_false, h4, Option.some_bind]
  rfl

/-- C20, the failing run: the line `history set`. The vector has two tokens, the test of
line 287 succeeds, and line 288 passes `args[2]`, the NULL of the end, to `atoi`: the run
is undefined, whatever the state of the shell. -/
theorem execute_command_history_set :
    parse_input "history set\n" = some ["history", "set"] ∧
      (∀ s : Shell, execute_command s ["history", "set"] = none) ∧
      ∀ (s : Shell) (fds : List Nat), interactive_line s fds "history set\n" = none := by
  refine ⟨by decide, fun _ => rfl, ?_⟩
  intro s fds
  have h1 : ¬ ('|' ∈ "history set\n".data) := by decide
  have h2 : ¬ ("history set\n" = "vars\n") := by decide
  have h3 : ¬ ("local ".data.isPrefixOf "history set\n".data = true ∨
      "export ".data.isPrefixOf "history set\n".data = true) := by decide
  have h4 : parse_input "history set\n" = some ["history", "set"] := by decide
  simp only [interactive_line, h1, h2, h3, if_false, h4, Option.some_bind]
  rfl

theorem execute_pipe_loop_children : ∀ (cmds : List (List String)) (fd_in : Nat)
    (run : PipeRun),
    (execute_pipe_loop cmds fd_in run).children.map (fun c => c.args) =
      run.children.map (fun c => c.args) ++ cmds := by
  intro cmds
  induction cmds with
  | nil => intro _ _; simp [execute_pipe_loop]
  | cons stage rest ih =>
    intro fd_in run
    rw [execute_pipe_loop, ih]
    simp

theorem interactive_line_piped (s : Shell) (fds : List Nat) (line : String)
    (h : '|' ∈ line.data) :
    ∃ cmds, parse_pipe_input line = some cmds ∧
      interactive_line s fds line = some (LineResult.piped (execute_pipe_command cmds fds)) ∧
      (execute_pipe_command cmds fds).children.map (fun c => c.args) = cmds ∧
      cmds = ((pipeSegments line).take 63).map (fun seg => (tokenRuns seg).take 64) := by
  refine ⟨_, parse_pipe_input_eq line, ?_, ?_, ?_⟩
  · simp only [interactive_line, h, if_true, parse_pipe_input_eq, Option.map_some']
  · unfold execute_pipe_command
    rw [execute_pipe_loop_children]
    rfl
  · rw [List.map_take]
    rfl

theorem execute_pipe_command_child (cmds : List (List String)) (fds : List Nat) (i : Nat)
    (stage : List String) (h : cmds[i]? = some stage) :
    ∃ c, (execute_pipe_command cmds fds).children[i]? = some c ∧ c.args = stage := by
  have hc : (execute_pipe_command cmds fds).children.map (fun c => c.args) = cmds := by
    unfold execute_pipe_command
    rw [execute_pipe_loop_children]
    rfl
  rw [← hc, List.getElem?_map] at h
  cases hi : (execute_pipe_command cmds fds).children[i]? with
  | none =>
    rw [hi] at h
    cases h
  | some c =>
    rw [hi] at h
    exact ⟨c, rfl, Option.some.inj h⟩

/-- C17, the failing run: the line `cmd1 | | cmd2`. parse_pipe_input returns three stages,
the second one with no tokens; the dispatcher hands them to execute_pipe_command, whatever
the state of the shell, and a child is forked for each of them; the child of the second
stage calls `execvp(cmds[1][0], cmds[1])` at line 259 with `cmds[1][0]` the NULL of the end:
its run is undefined. So it is for every vector of stages with a stage of no tokens in it:
the stage is neither rejected nor skipped, a child is forked for it and its `execvp` is
undefined. -/
theorem execute_pipe_command_empty_stage :
    parse_pipe_input "cmd1 | | cmd2\n" = some [["cmd1"], [], ["cmd2"]] ∧
    (∀ (s : Shell) (fds : List Nat), ∃ run c,
      interactive_line s fds "cmd1 | | cmd2\n" = some (LineResult.piped run) ∧
      run.children.map (fun c => c.args) = [["cmd1"], [], ["cmd2"]] ∧
      run.children[1]? = some c ∧ c.args = [] ∧ child_execvp c = none) ∧
    ∀ (before after : List (List String)) (fds : List Nat), ∃ c,
      (execute_pipe_command (before ++ [] :: after) fds).children[before.length]? = some c ∧
      c.args = [] ∧ child_execvp c = none := by
  have hp : parse_pipe_input "cmd1 | | cmd2\n" = some [["cmd1"], [], ["cmd2"]] := by decide
  refine ⟨hp, ?_, ?_⟩
  · intro s fds
    obtain ⟨cmds, h1, h2, h3, _⟩ :=
      interactive_line_piped s fds "cmd1 | | cmd2\n" (by decide)
    rw [hp] at h1
    cases h1
    obtain ⟨c, hc1, hc2⟩ := execute_pipe_command_child [["cmd1"], [], ["cmd2"]] fds 1 [] rfl
    refine ⟨_, c, h2, h3, hc1, hc2, ?_⟩
    unfold child_execvp
    rw [hc2]
  · intro before after fds
    obtain ⟨c, hc1, hc2⟩ := execute_pipe_command_child (before ++ [] :: after) fds
      before.length [] (by rw [List.getElem?_append_right (le_refl _)]; simp)
    refine ⟨c, hc1, hc2, ?_⟩
    unfold child_execvp
    rw [hc2]

end Wsh
